import Mathlib

/-!
Verification of the structured-decoding core of DDParser
(`ddparser/parser/data_struct/utils.py`): the Eisner decoder, the
length-bucketing k-means clusterer, and the projective-tree validator
(`DepTree` / `istree`).

Real-number scores are modelled by rationals (`ℚ`); the `-inf` sentinel used
by the decoder's dynamic program is modelled by `⊥` in `WithBot ℚ`.
Python list indexing (which wraps negative indices and raises on
out-of-range ones) is modelled explicitly, and functions that can raise in
Python return `Option`.
-/

namespace DDP

/-! ### Generic helpers -/

/-- Ascending sort, modelling Python's `sorted` on lists of ints. -/
def sortAsc (l : List ℕ) : List ℕ := List.insertionSort (· ≤ ·) l

/-- Python list index semantics for reads: a negative index wraps around
(`xs[-1]` is the last element); this is total because callers check range. -/
def effIdx (n : ℕ) (p : ℤ) : ℕ := if p < 0 then ((n : ℤ) + p).toNat else p.toNat

/-! ### Tree validator (`DepTree`, `istree`, utils.py lines 176-248)

A node record holds the ascending-sorted ids of left and right dependents,
exactly as `NODE.lefts` / `NODE.rights` do. -/

structure PNode where
  lefts : List ℕ
  rights : List ℕ
deriving Repr, DecidableEq

instance : Inhabited PNode := ⟨⟨[], []⟩⟩

/-- Models `DepTree.add` (utils.py lines 206-213): insert child id `c` into
the parent record at position `p`, into `rights` when `parent.id < child.id`
and into `lefts` otherwise, re-sorting the list as `sorted(old + [c])` does. -/
def addChild (ns : List PNode) (p c : ℕ) : List PNode :=
  let par := ns.getD p default
  if p < c then ns.set p { par with rights := sortAsc (par.rights ++ [c]) }
  else ns.set p { par with lefts := sortAsc (par.lefts ++ [c]) }

/-- Models `DepTree.build_tree` (lines 198-204): every node of index ≥ 1 is
added as a child of the node at its (Python-wrapped) parent index. -/
def buildNodes (par : ℕ → ℕ) (n : ℕ) : List PNode :=
  (List.range' 1 (n - 1)).foldl (fun ns c => addChild ns (par c) c)
    (List.replicate n default)

/-- Folds a traversal function over a dependent list, threading the visited
set and concatenating the produced id lists, as the
`for ln in node.lefts: lf_list += ...` loops do. -/
def inorderMany (f : List Bool → ℕ → List ℕ × List Bool) :
    List Bool → List ℕ → List ℕ × List Bool
  | v, [] => ([], v)
  | v, c :: cs =>
    let ares := f v c
    let bres := inorderMany f ares.2 cs
    (ares.1 ++ bres.1, bres.2)

/-- Models `DepTree.inorder_traversal` (lines 226-238): an already-visited
node contributes `[]`; otherwise the node is marked visited and the result is
the concatenation of the left-dependent traversals, the node itself, and the
right-dependent traversals.  `fl` is recursion-depth fuel; the top-level
caller supplies more fuel than nodes, which we prove is always enough. -/
def inorderF (g : List PNode) : ℕ → List Bool → ℕ → List ℕ × List Bool
  | 0, v, _ => ([], v)
  | fl + 1, v, node =>
    if v.getD node true then ([], v)
    else
      let v1 := v.set node true
      let lres := inorderMany (inorderF g fl) v1 (g.getD node default).lefts
      let rres := inorderMany (inorderF g fl) lres.2 (g.getD node default).rights
      (lres.1 ++ node :: rres.1, rres.2)

/-- Models `DepTree.judge_legal` (lines 215-224): the root must have exactly
one dependent, and the in-order traversal from the root must equal
`range n`. -/
def judgeLegal (g : List PNode) (n : ℕ) : Bool :=
  let root := g.getD 0 default
  if (root.lefts ++ root.rights).length ≠ 1 then false
  else decide ((inorderF g (n + 1) (List.replicate n false) 0).1 = List.range n)

/-- Entries reachable by `self.nodes[node.parent]` without raising
`IndexError`: every parent value of a non-root node lies in `[-n, n)`. -/
def headsLegal (t : List ℤ) : Bool :=
  (List.range' 1 (t.length - 1)).all fun i =>
    decide (-(t.length : ℤ) ≤ t.getD i 0 ∧ t.getD i 0 < (t.length : ℤ))

/-- Models `istree` (lines 246-248) together with the `DepTree` constructor
(lines 190-196): the input is copied, index 0 is overwritten with `-1`, the
node records are built and `judge_legal` is evaluated.  `none` models an
uncaught Python exception (empty input, or a parent index outside `[-n, n)`
raising `IndexError` inside `build_tree`). -/
def istree (s : List ℤ) : Option Bool :=
  if s.length = 0 then none
  else
    let t := s.set 0 (-1)
    if headsLegal t then
      let n := t.length
      let g := buildNodes (fun c => effIdx n (t.getD c 0)) n
      some (judgeLegal g n)
    else none

/-! ### Constructor store model (`DepTree.__init__`, lines 190-196)

Python list objects live in a store addressed by references; `copy.deepcopy`
allocates a fresh object, and `sentence[0] = -1` mutates through the
reference produced by the copy, leaving the caller's object untouched. -/

/-- Allocates a fresh copy of the object at `r` and returns its reference
(models `copy.deepcopy(sentence)`). -/
def deepcopyAlloc (st : List (List ℤ)) (r : ℕ) : List (List ℤ) × ℕ :=
  (st ++ [st.getD r []], st.length)

/-- In-place element assignment through a reference
(models `sentence[0] = -1` on whichever object `sentence` refers to). -/
def storeSetIdx (st : List (List ℤ)) (r i : ℕ) (v : ℤ) : List (List ℤ) :=
  st.set r ((st.getD r []).set i v)

/-- The state effect of `DepTree.__init__` lines 192-193 on the store: copy
the argument object, then overwrite index 0 of the copy with `-1`; returns
the updated store and the reference held in `self.sentence`. -/
def depTreeInitStore (st : List (List ℤ)) (r : ℕ) : List (List ℤ) × ℕ :=
  let a := deepcopyAlloc st r
  (storeSetIdx a.1 a.2 0 (-1), a.2)

/-! ### Specification-side reformulation of the validator (for claim C2) -/

/-- Dependent count of the root as the claim words it: tokens of index ≥ 1
whose stored parent value is 0. -/
def rootDeps (s : List ℤ) : ℕ :=
  ((List.range' 1 (s.length - 1)).filter fun c => s.getD c 0 == 0).length

/-- Left dependents of `p` read off the head array directly: ids `c ≥ 1` with
parent `p` and `c ≤ p`, in ascending order. -/
def specKidsL (s : List ℤ) (p : ℕ) : List ℕ :=
  (List.range' 1 (s.length - 1)).filter fun c =>
    (s.getD c 0).toNat == p && ! decide (p < c)

/-- Right dependents of `p` read off the head array directly. -/
def specKidsR (s : List ℤ) (p : ℕ) : List ℕ :=
  (List.range' 1 (s.length - 1)).filter fun c =>
    (s.getD c 0).toNat == p && decide (p < c)

/-- Node records read off the head array directly, with no incremental
insertion. -/
def specNodes (s : List ℤ) : List PNode :=
  (List.range s.length).map fun p => ⟨specKidsL s p, specKidsR s p⟩

/-- The claim's in-order traversal: left-dependent subtrees in ascending id
order, the node, then right-dependent subtrees in ascending id order,
starting at the root. -/
def specTravTop (s : List ℤ) : List ℕ :=
  (inorderF (specNodes s) (s.length + 1) (List.replicate s.length false) 0).1

/-! ### Bucketer (`kmeans`, utils.py lines 50-100) -/

/-- Smallest element of a list (`0` / `default` on the empty list, which the
callers rule out). -/
def minV {α : Type} [LinearOrder α] [Inhabited α] : List α → α
  | [] => default
  | [a] => a
  | a :: b :: r => min a (minV (b :: r))

/-- Largest element of a list. -/
def maxV {α : Type} [LinearOrder α] [Inhabited α] : List α → α
  | [] => default
  | [a] => a
  | a :: b :: r => max a (maxV (b :: r))

/-- First index attaining the minimum, as numpy `argmin` ties break. -/
def argminF {α : Type} [LinearOrder α] [Inhabited α] : List α → ℕ
  | [] => 0
  | [_] => 0
  | a :: b :: r => if a ≤ minV (b :: r) then 0 else argminF (b :: r) + 1

/-- First index attaining the maximum, as numpy `argmax` ties break. -/
def argmaxF {α : Type} [LinearOrder α] [Inhabited α] : List α → ℕ
  | [] => 0
  | [_] => 0
  | a :: b :: r => if maxV (b :: r) ≤ a then 0 else argmaxF (b :: r) + 1

/-- Ascending list of distinct values: the value array `d` of
`np.unique(x, ...)` (line 63). -/
def uniqVals (x : List ℚ) : List ℚ := (List.insertionSort (· ≤ ·) x).dedup

/-- Position of a value inside the distinct-value list: the inverse-index
array of `np.unique(..., return_inverse=True)`. -/
def invIdx (d : List ℚ) (q : ℚ) : ℕ := d.findIdx (fun v => v == q)

/-- Multiplicity of each distinct value (`return_counts`, the array `f`). -/
def freq (x d : List ℚ) : List ℕ := d.map fun v => x.count v

/-- Value times multiplicity (`total = d * f`, line 65). -/
def totals (x d : List ℚ) : List ℚ := d.map fun v => v * (x.count v : ℚ)

/-- Distance of each distinct value to its nearest centroid together with the
first-argmin centroid label (`dists, y = dists_abs.min(-1),
dists_abs.argmin(-1)`, lines 69-70 and 90-91). -/
def assignY (d c : List ℚ) : List ℚ × List ℕ :=
  (d.map fun v => minV (c.map fun cv => |v - cv|),
   d.map fun v => argminF (c.map fun cv => |v - cv|))

/-- One pass of the empty-cluster repair for label `i` (lines 78-85): when no
datapoint carries label `i`, the member of the biggest cluster that is
farthest from its centroid is relabelled `i`. -/
def repairStep (dists : List ℚ) (k : ℕ) (y : List ℕ) (i : ℕ) : List ℕ :=
  if y.any (· == i) then y
  else
    let lens := (List.range k).map fun j => y.count j
    let big := argmaxF lens
    let members := (List.range y.length).filter fun t => y.getD t 0 == big
    let far := argmaxF (members.map fun t => dists.getD t 0)
    y.set (members.getD far 0) i

/-- The `for i in range(k)` repair loop. -/
def repairAll (dists : List ℚ) (k : ℕ) (y : List ℕ) : List ℕ :=
  (List.range k).foldl (repairStep dists k) y

/-- Frequency-weighted centroid update
`c = (total * mask).sum(-1) / (f * mask).sum(-1)` (line 88). -/
def updateC (total : List ℚ) (f : List ℕ) (k : ℕ) (y : List ℕ) : List ℚ :=
  (List.range k).map fun i =>
    ((((List.range y.length).filter fun t => y.getD t 0 == i).map
        fun t => total.getD t 0).sum) /
    ((((List.range y.length).filter fun t => y.getD t 0 == i).map
        fun t => (f.getD t 0 : ℚ)).sum)

/-- Lloyd-iteration state: centroids, distinct-value labels, distances. -/
structure KState where
  c : List ℚ
  y : List ℕ
  dists : List ℚ
deriving Repr, DecidableEq

/-- One body of the `while` loop (lines 74-91): repair empty clusters, update
centroids, re-assign labels. -/
def kstep (d total : List ℚ) (f : List ℕ) (k : ℕ) (s : KState) : KState :=
  let y1 := repairAll s.dists k s.y
  let c1 := updateC total f k y1
  let a := assignY d c1
  ⟨c1, a.2, a.1⟩

/-- The `while old is None or not np.equal(c, old).all()` loop, with explicit
iteration fuel; the cluster-structure theorems hold for every fuel value. -/
def kloop (d total : List ℚ) (f : List ℕ) (k : ℕ) :
    ℕ → Option (List ℚ) → KState → KState
  | 0, _, s => s
  | fuel + 1, old, s =>
    if old = some s.c then s
    else kloop d total f k fuel (some s.c) (kstep d total f k s)

/-- Models `kmeans` (utils.py lines 50-100).  The random permutation that
initialises the centroids (`np.random.permutation(len(d))[:k]`, line 67) is
passed explicitly as `perm`; float32 arithmetic is modelled exactly over
`ℚ`. -/
def kmeans (perm : List ℕ) (fuel : ℕ) (x : List ℚ) (k : ℕ) :
    List ℚ × List (List ℕ) :=
  let d := uniqVals x
  let f := freq x d
  let total := totals x d
  let c0 := (perm.map fun t => d.getD t 0).take k
  let a0 := assignY d c0
  let kk := min d.length k
  let s := kloop d total f kk fuel none ⟨c0, a0.2, a0.1⟩
  let yFull := x.map fun q => s.y.getD (invIdx d q) 0
  let assigned := (List.insertionSort (· ≤ ·) s.y).dedup
  let centroids := assigned.map fun i => s.c.getD i 0
  let clusters := assigned.map fun i =>
    (List.range yFull.length).filter fun t => yFull.getD t 0 == i
  (centroids, clusters)

/-- The Lloyd-loop state that `kmeans` reaches, exposed as a named value for
the theorems below (definitionally the state computed inside `kmeans`). -/
def kmState (perm : List ℕ) (fuel : ℕ) (x : List ℚ) (k : ℕ) : KState :=
  kloop (uniqVals x) (totals x (uniqVals x)) (freq x (uniqVals x))
    (min (uniqVals x).length k) fuel none
    ⟨(perm.map fun t => (uniqVals x).getD t 0).take k,
     (assignY (uniqVals x) ((perm.map fun t => (uniqVals x).getD t 0).take k)).2,
     (assignY (uniqVals x) ((perm.map fun t => (uniqVals x).getD t 0).take k)).1⟩

/-! ### Eisner decoder (utils.py lines 103-173)

The numpy helpers `nn.stripe` and `nn.fill_diagonal` realise exactly the
recurrences stated in the source comments (lines 133-163); the four span
tables are defined here directly by those recurrences, by structural
recursion on the span width exactly as the `for w in range(1, seq_len)` loop
fills them.  Scores are `ℚ`, table entries are `WithBot ℚ` with `⊥` playing
the role of the `-inf` initial value, and every table entry carries its
first-argmax split point as the backtrack pointer. -/

inductive SpanKind
  | il
  | ir
  | cl
  | cr
deriving DecidableEq, Repr

/-- First maximum of an indexed candidate list: numpy `argmax` keeps the
first maximal position and the stripes enumerate split points in increasing
order. -/
def pickF : List (ℕ × WithBot ℚ) → ℕ × WithBot ℚ
  | [] => (0, ⊥)
  | p :: rest => rest.foldl (fun a b => if a.2 < b.2 then b else a) p

/-- Base table content before any width is processed: `0` on the diagonal of
the complete tables (line 126), `-inf` everywhere else (lines 118-120). -/
def dpBase (k : SpanKind) (i j : ℕ) : ℕ × WithBot ℚ :=
  (0, if i = j ∧ (k = .cl ∨ k = .cr) then (0 : WithBot ℚ) else ⊥)

/-- Candidate list shared by both incomplete-span directions:
`C(i→r) + C(j→r+1) + s` over split points `r ∈ [i, j)` (lines 133-148). -/
def iCands (T : SpanKind → ℕ → ℕ → WithBot ℚ) (s : ℚ) (i j : ℕ) :
    List (ℕ × WithBot ℚ) :=
  (List.range' i (j - i)).map fun r => (r, T .cr i r + T .cl (r + 1) j + (s : WithBot ℚ))

/-- Incomplete-span value for a given arc score. -/
def iVal (T : SpanKind → ℕ → ℕ → WithBot ℚ) (s : ℚ) (i j : ℕ) : WithBot ℚ :=
  (pickF (iCands T s i j)).2

/-- Width-indexed span tables: `dpW L S w` is the table state after the loop
has processed all widths `≤ w`.  Entry `(k, i, j)` is the pair
(stored split point, stored score) for the span `[i, j]` of kind `k`; the
root-attachment masking `s_c[0, w][lens ≠ w] = -inf` (line 162) is applied to
the complete-right value at the width that computes it, exactly as in the
loop. -/
def dpW (L : ℕ) (S : ℕ → ℕ → ℚ) : ℕ → SpanKind → ℕ → ℕ → ℕ × WithBot ℚ
  | 0, k, i, j => dpBase k i j
  | w + 1, k, i, j =>
    if j - i ≤ w then dpW L S w k i j
    else if j - i = w + 1 then
      let T := fun k' a b => (dpW L S w k' a b).2
      match k with
      | .il => pickF (iCands T (S i j) i j)
      | .ir => pickF (iCands T (S j i) i j)
      | .cl =>
        pickF ((List.range' i (j - i)).map fun r =>
          (r, T .cl i r + iVal T (S r j) r j))
      | .cr =>
        let p := pickF ((List.range' (i + 1) (j - i)).map fun r =>
          (r, iVal T (S r i) i r + T .cr r j))
        (p.1, if i = 0 ∧ j ≠ L then ⊥ else p.2)
    else dpBase k i j

/-- The finished table: the entry for a span is fixed once its width has been
processed. -/
def dp (L : ℕ) (S : ℕ → ℕ → ℚ) (k : SpanKind) (i j : ℕ) : ℕ × WithBot ℚ :=
  dpW L S (j - i) k i j

/-- Lookup into the backtrack-pointer table `p_i`: entry `(a, b)` is the
stored split of the incomplete span with head `a` and dependent `b`
(above the diagonal for rightward arcs, below it for leftward arcs). -/
def pIlook (L : ℕ) (S : ℕ → ℕ → ℚ) (a b : ℕ) : ℕ :=
  if a < b then (dp L S .ir a b).1 else (dp L S .il b a).1

/-- Lookup into the backtrack-pointer table `p_c`. -/
def pClook (L : ℕ) (S : ℕ → ℕ → ℚ) (a b : ℕ) : ℕ :=
  if a < b then (dp L S .cr a b).1 else (dp L S .cl b a).1

/-- Modelled from the spec: `nn.backtrack` is not among the provided sources;
the spec (§4.1) describes the standard Eisner backtracking that starts from
the full complete span, alternates between the complete and incomplete
tables via the stored split points, and records the head of each incomplete
span's dependent.  `n` is the table dimension — a read outside `[0, n)` or a
write outside the head array models an `IndexError` and yields `none` — and
`fuel` bounds the recursion depth (`2*n + 1` is proved to always suffice). -/
def backtrack (n : ℕ) (pI pC : ℕ → ℕ → ℕ) :
    ℕ → ℕ → ℕ → Bool → List ℕ → Option (List ℕ)
  | 0, _, _, _, _ => none
  | fuel + 1, i, j, cpl, heads =>
    if i = j then some heads
    else if ¬ (i < n ∧ j < n) then none
    else if cpl then
      match backtrack n pI pC fuel i (pC i j) false heads with
      | none => none
      | some h1 => backtrack n pI pC fuel (pC i j) j true h1
    else
      if j < heads.length then
        match backtrack n pI pC fuel (min i j) (pI i j) true (heads.set j i) with
        | none => none
        | some h2 => backtrack n pI pC fuel (max i j) (pI i j + 1) true h2
      else none

/-- The `(dependent, head)` assignments performed by `backtrack`, as a pure
list in recursion order. -/
def btArcs (pI pC : ℕ → ℕ → ℕ) : ℕ → ℕ → ℕ → Bool → List (ℕ × ℕ)
  | 0, _, _, _ => []
  | fuel + 1, i, j, cpl =>
    if i = j then []
    else if cpl then
      btArcs pI pC fuel i (pC i j) false ++ btArcs pI pC fuel (pC i j) j true
    else
      (j, i) :: (btArcs pI pC fuel (min i j) (pI i j) true ++
        btArcs pI pC fuel (max i j) (pI i j + 1) true)

/-- Per-sentence Eisner decode (utils.py lines 103-173; every array operation
of the batched code is pointwise along the batch axis, so a batch decode is
the list of per-sentence decodes).  The sentence length is the mask row-sum
(line 114, the only use of the mask); the head array is initialised to ones
(`np.ones(length + 1)`, line 169) and backtracked from the full span
`(0, length)`.  `nn.pad_sequence` is modelled from the spec: it is not among
the provided sources, and the spec fixes the padding sentinel to `1` and the
padded length to the common sequence length `n`. -/
def eisner (n : ℕ) (S : ℕ → ℕ → ℚ) (mask : List Bool) : Option (List ℕ) :=
  let L := mask.count true
  match backtrack n (pIlook L S) (pClook L S) (2 * n + 1) 0 L true
      (List.replicate (L + 1) 1) with
  | none => none
  | some hs => some (hs ++ List.replicate (n - (L + 1)) 1)

/-- Range constraints that the stored split points always satisfy: the split
of a span lies inside the span, strictly on the correct side. -/
def TOk (pI pC : ℕ → ℕ → ℕ) : Prop :=
  ∀ a b, a < b →
    (a ≤ pI a b ∧ pI a b < b) ∧ (a ≤ pI b a ∧ pI b a < b) ∧
    (a < pC a b ∧ pC a b ≤ b) ∧ (a ≤ pC b a ∧ pC b a < b)

/-- The ids that receive a head inside a backtrack span `(i, j)`: everything
in the closed interval between the endpoints except the head end `i`, in
ascending order. -/
def spanDeps (i j : ℕ) : List ℕ :=
  if i ≤ j then List.range' (i + 1) (j - i) else List.range' j (i - j)

/-- Marks every listed id as visited. -/
def markList (v : List Bool) (l : List ℕ) : List Bool :=
  l.foldl (fun v t => v.set t true) v

/-- Scores favouring the arc root → token 1 (dependent 1, head 0). -/
def scA : ℕ → ℕ → ℚ := fun d h => if d = 1 ∧ h = 0 then 10 else 0

/-- Scores favouring the arc root → token 2 (dependent 2, head 0). -/
def scB : ℕ → ℕ → ℚ := fun d h => if d = 2 ∧ h = 0 then 10 else 0

/-!
## Theorems

Sanity evaluations of the embedded functions on concrete inputs, followed by
supporting lemmas and the claim theorems.
-/

example : istree [0, 0, 1] = some true := by decide
example : istree [0, 0, 0] = some false := by decide
example : istree [0, 2, 1] = some false := by decide
example : istree [0, -2] = some true := by decide
example : istree [0, 5] = none := by decide
example : istree [] = none := by decide
example : istree [1, 2, 0, 1] = some false := by decide
example : (kmeans [0] 5 [2] 1).2 = [[0]] := by with_unfolding_all rfl
example : (kmeans [0, 1] 5 [1, 1, 100] 2).2 = [[0, 1], [2]] := by with_unfolding_all rfl
example : (kmeans [1, 0] 5 [1, 1, 100] 7).2 = [[2], [0, 1]] := by with_unfolding_all rfl
example : (kmeans [1, 0] 9 [1, 1, 1, 1, 100] 3).2 = [[4], [0, 1, 2, 3]] := by
  with_unfolding_all rfl
example : eisner 2 scA [false, true] = some [1, 0] := by with_unfolding_all rfl
example : eisner 3 scA [false, true, true] = some [1, 0, 1] := by
  with_unfolding_all rfl
example : eisner 3 scB [false, true, true] = some [1, 2, 0] := by
  with_unfolding_all rfl
example : eisner 4 scB [false, true, true, false] = some [1, 2, 0, 1] := by
  with_unfolding_all rfl
example : eisner 2 scA [true, true] = none := by with_unfolding_all rfl

/-! ### Claim C9: root-attachment masking -/

/-- C9: during the Eisner dynamic program, after processing width `w` the
complete-right-span root-attachment score at position `(0, w)` is `-inf`
(here `⊥`) whenever the sentence's true length `L` differs from `w`; the
batched code applies this pointwise to every sentence of the batch. -/
theorem claim9_root_mask (L : ℕ) (S : ℕ → ℕ → ℚ) (w : ℕ) (h1 : 1 ≤ w)
    (h2 : w ≠ L) : (dp L S SpanKind.cr 0 w).2 = ⊥ := by
  obtain ⟨w', rfl⟩ : ∃ w', w = w' + 1 := ⟨w - 1, by omega⟩
  simp [dp, dpW, h2]

/-- Witness for C9 at `w = 1`, `L = 2`, zero scores. -/
theorem claim9_root_mask_witness :
    (dp 2 (fun _ _ => 0) SpanKind.cr 0 1).2 = ⊥ :=
  claim9_root_mask 2 (fun _ _ => 0) 1 (by decide) (by decide)

/-! ### Claim C5: out-of-range head indices -/

/-- C5 counterexample: `-2` is an out-of-range head index (negative and
distinct from the root sentinel `-1`), yet `istree [0, -2]` silently
produces a result — Python's negative indexing wraps `-2` to the root — so
validation does not fail fast on every out-of-range head index. -/
theorem claim5_cex :
    ((-2 : ℤ) < 0 ∧ (-2 : ℤ) ≠ -1 ∧ ¬ (0 ≤ (-2 : ℤ) ∧ (-2 : ℤ) < 2)) ∧
      istree [0, -2] = some true := by decide

/-- C5 amended: a head entry at a position `i ≥ 1` lying outside the Python
index range `[-n, n)` makes validation fail with an explicit error
(`IndexError` in `build_tree`, `none` here); negative entries inside
`[-n, -1]` instead wrap around silently. -/
theorem claim5_amended (s : List ℤ) (i : ℕ) (h1 : 1 ≤ i) (h2 : i < s.length)
    (h3 : (s.length : ℤ) ≤ s.getD i 0 ∨ s.getD i 0 < -(s.length : ℤ)) :
    istree s = none := by
  have hlen0 : ¬ s.length = 0 := by omega
  have htg : (s.set 0 (-1)).getD i 0 = s.getD i 0 := by
    simp [List.getD_eq_getElem?_getD, List.getElem?_set_ne (show (0 : ℕ) ≠ i by omega)]
  have hmem : i ∈ List.range' 1 ((s.set 0 (-1)).length - 1) := by
    rw [List.mem_range'_1]
    simp only [List.length_set]
    omega
  have hfail : ¬ headsLegal (s.set 0 (-1)) = true := by
    intro hall
    rw [headsLegal, List.all_eq_true] at hall
    have hv := hall i hmem
    rw [decide_eq_true_eq, htg] at hv
    simp only [List.length_set] at hv
    omega
  rw [istree, if_neg hlen0, if_neg hfail]

/-- Witness for C5's amended form: entry `7` at position 1 of a length-2
array is out of range and validation reports an error. -/
theorem claim5_amended_witness : istree [0, 7] = none :=
  claim5_amended [0, 7] 1 (by decide) (by decide) (by decide)

/-! ### Claim C10: the validator never mutates the caller's sequence -/

/-- C10: the `DepTree` constructor deep-copies the sequence before
overwriting the root entry, so the caller's object is element-wise unchanged
by validation, while the internal reference holds the overwritten copy. -/
theorem claim10_no_mutation (st : List (List ℤ)) (r : ℕ) (h : r < st.length) :
    (depTreeInitStore st r).1.getD r [] = st.getD r [] ∧
      (depTreeInitStore st r).1.getD (depTreeInitStore st r).2 [] =
        (st.getD r []).set 0 (-1) := by
  constructor
  · simp only [depTreeInitStore, deepcopyAlloc, storeSetIdx,
      List.getD_eq_getElem?_getD]
    rw [List.getElem?_set_ne (show st.length ≠ r by omega)]
    rw [List.getElem?_append_left h]
  · simp only [depTreeInitStore, deepcopyAlloc, storeSetIdx,
      List.getD_eq_getElem?_getD]
    rw [List.getElem?_set_self (by simp)]
    rw [List.getElem?_concat_length]
    rfl

/-- Witness for C10 on a concrete store. -/
theorem claim10_no_mutation_witness :
    (depTreeInitStore [[0, 0, 1]] 0).1.getD 0 [] = [0, 0, 1] ∧
      (depTreeInitStore [[0, 0, 1]] 0).1.getD (depTreeInitStore [[0, 0, 1]] 0).2 [] =
        [-1, 0, 1] :=
  claim10_no_mutation [[0, 0, 1]] 0 (by decide)

/-! ### Structure of the node list built by `build_tree` -/

theorem addChild_length (ns : List PNode) (p c : ℕ) :
    (addChild ns p c).length = ns.length := by
  unfold addChild
  split <;> simp

theorem buildFold_length (par : ℕ → ℕ) (l : List ℕ) (ns : List PNode) :
    (l.foldl (fun ns c => addChild ns (par c) c) ns).length = ns.length := by
  induction l generalizing ns with
  | nil => rfl
  | cons c l ih => rw [List.foldl_cons, ih, addChild_length]

theorem buildNodes_length (par : ℕ → ℕ) (n : ℕ) :
    (buildNodes par n).length = n := by
  rw [buildNodes, buildFold_length, List.length_replicate]

theorem sorted_le_filter_range' (s m : ℕ) (q : ℕ → Bool) :
    List.Sorted (· ≤ ·) ((List.range' s m).filter q) := by
  have h1 : List.Pairwise (· < ·) ((List.range' s m).filter q) :=
    (List.pairwise_lt_range' s m).filter q
  exact h1.imp (fun h => Nat.le_of_lt h)

/-- Appending one id larger than everything in a filtered ascending range
and re-sorting is the same as plain appending. -/
theorem sortAsc_filter_append (s m c : ℕ) (q : ℕ → Bool) (hc : s + m ≤ c) :
    sortAsc (((List.range' s m).filter q) ++ [c]) =
      ((List.range' s m).filter q) ++ [c] := by
  apply List.Sorted.insertionSort_eq
  rw [List.Sorted, List.pairwise_append]
  refine ⟨sorted_le_filter_range' s m q, List.pairwise_singleton _ _, ?_⟩
  intro a ha b hb
  rw [List.mem_singleton] at hb
  subst hb
  have := (List.mem_filter.mp ha).1
  rw [List.mem_range'_1] at this
  omega

/-- Content of the fold that `build_tree` performs over an initial prefix of
the ids: the dependent lists of every position are exactly the filtered
ascending ranges. -/
theorem buildFold_getD (par : ℕ → ℕ) (n p : ℕ) (hp : p < n) (m : ℕ)
    (hpar : ∀ c, 1 ≤ c → c ≤ m → par c < n) :
    ((List.range' 1 m).foldl (fun ns c => addChild ns (par c) c)
        (List.replicate n default)).getD p default =
      ⟨(List.range' 1 m).filter (fun c => par c == p && ! decide (p < c)),
       (List.range' 1 m).filter (fun c => par c == p && decide (p < c))⟩ := by
  induction m with
  | zero =>
    simp [List.getD_eq_getElem?_getD, List.getElem?_eq_getElem, hp]
    rfl
  | succ m ih =>
    have hparm : ∀ c, 1 ≤ c → c ≤ m → par c < n := fun c h1 h2 => hpar c h1 (by omega)
    have hm := ih hparm
    rw [List.range'_concat, List.foldl_append, List.foldl_cons, List.foldl_nil,
      List.filter_append, List.filter_append]
    set c := 1 + 1 * m with hc
    have hc' : c = m + 1 := by omega
    have hlen : ((List.range' 1 m).foldl (fun ns c => addChild ns (par c) c)
        (List.replicate n default)).length = n := by
      rw [buildFold_length, List.length_replicate]
    set prev := (List.range' 1 m).foldl (fun ns c => addChild ns (par c) c)
      (List.replicate n default) with hprev
    have hqn : par c < n := hpar c (by omega) (by omega)
    by_cases hq : par c = p
    · subst hq
      rw [addChild]
      by_cases hlt : par c < c
      · rw [if_pos hlt]
        have hget : (prev.set (par c)
            { prev.getD (par c) default with
              rights := sortAsc ((prev.getD (par c) default).rights ++ [c]) }).getD
              (par c) default =
            { prev.getD (par c) default with
              rights := sortAsc ((prev.getD (par c) default).rights ++ [c]) } := by
          simp [List.getD_eq_getElem?_getD, List.getElem?_set_self (by omega : par c < prev.length)]
        rw [hget, hm]
        have hfl : List.filter (fun x => par x == par c && ! decide (par c < x)) [c] = [] := by
          simp [hlt]
        have hfr : List.filter (fun x => par x == par c && decide (par c < x)) [c] = [c] := by
          simp [hlt]
        rw [hfl, hfr, List.append_nil]
        have hs := sortAsc_filter_append 1 m c
          (fun x => par x == par c && decide (par c < x)) (by omega)
        simp only [PNode.mk.injEq]
        exact ⟨trivial, hs⟩
      · rw [if_neg hlt]
        have hget : (prev.set (par c)
            { prev.getD (par c) default with
              lefts := sortAsc ((prev.getD (par c) default).lefts ++ [c]) }).getD
              (par c) default =
            { prev.getD (par c) default with
              lefts := sortAsc ((prev.getD (par c) default).lefts ++ [c]) } := by
          simp [List.getD_eq_getElem?_getD, List.getElem?_set_self (by omega : par c < prev.length)]
        rw [hget, hm]
        have hfl : List.filter (fun x => par x == par c && ! decide (par c < x)) [c] = [c] := by
          simp [hlt]
        have hfr : List.filter (fun x => par x == par c && decide (par c < x)) [c] = [] := by
          simp [hlt]
        rw [hfl, hfr, List.append_nil]
        have hs := sortAsc_filter_append 1 m c
          (fun x => par x == par c && ! decide (par c < x)) (by omega)
        simp only [PNode.mk.injEq]
        exact ⟨hs, trivial⟩
    · have hset : (addChild prev (par c) c).getD p default = prev.getD p default := by
        rw [addChild]
        split <;>
          simp [List.getD_eq_getElem?_getD, List.getElem?_set_ne hq]
      rw [hset, hm]
      have hfl : List.filter (fun x => par x == p && ! decide (p < x)) [c] = [] := by
        simp [hq]
      have hfr : List.filter (fun x => par x == p && decide (p < x)) [c] = [] := by
        simp [hq]
      rw [hfl, hfr, List.append_nil, List.append_nil]

/-- The dependent lists of position `p < n` after `build_tree`. -/
theorem buildNodes_getD (par : ℕ → ℕ) (n p : ℕ) (hp : p < n)
    (hpar : ∀ c, 1 ≤ c → c < n → par c < n) :
    (buildNodes par n).getD p default =
      ⟨(List.range' 1 (n - 1)).filter (fun c => par c == p && ! decide (p < c)),
       (List.range' 1 (n - 1)).filter (fun c => par c == p && decide (p < c))⟩ := by
  rw [buildNodes]
  exact buildFold_getD par n p hp (n - 1) (fun c h1 h2 => hpar c h1 (by omega))


/-! ### Claim C6: cycles yield `false`, not an error -/

theorem inorderMany_closed (f : List Bool → ℕ → List ℕ × List Bool)
    (P : ℕ → Prop) (hf : ∀ v c, P c → ∀ e ∈ (f v c).1, P e) :
    ∀ cs v, (∀ c ∈ cs, P c) → ∀ e ∈ (inorderMany f v cs).1, P e := by
  intro cs
  induction cs with
  | nil =>
    intro v h e he
    simp [inorderMany] at he
  | cons c cs ih =>
    intro v h e he
    rw [inorderMany] at he
    simp only [List.mem_append] at he
    rcases he with he | he
    · exact hf v c (h c (List.mem_cons_self c cs)) e he
    · exact ih _ (fun x hx => h x (List.mem_cons_of_mem c hx)) e he

theorem inorderF_closed (g : List PNode) (P : ℕ → Prop)
    (hg : ∀ node c, P node →
      (c ∈ (g.getD node default).lefts ∨ c ∈ (g.getD node default).rights) →
      P c) :
    ∀ fl v node, P node → ∀ e ∈ (inorderF g fl v node).1, P e := by
  intro fl
  induction fl with
  | zero =>
    intro v node hP e he
    simp [inorderF] at he
  | succ fl ih =>
    intro v node hP e he
    rw [inorderF] at he
    split at he
    · simp at he
    · simp only [List.mem_append, List.mem_cons] at he
      rcases he with he | he | he
      · exact inorderMany_closed (inorderF g fl) P (fun v c h => ih v c h) _ _
          (fun c hc => hg node c hP (Or.inl hc)) e he
      · exact he ▸ hP
      · exact inorderMany_closed (inorderF g fl) P (fun v c h => ih v c h) _ _
          (fun c hc => hg node c hP (Or.inr hc)) e he

/-- C6: for a head array whose non-root entries are valid indices but whose
induced graph has a cycle among non-root nodes (a nonempty head-closed set
of ids not containing the root), `istree` terminates with the boolean result
`false` — the visited guard makes an already-visited node contribute an
empty list, so the cyclic part never appears in the traversal and the
traversal check fails instead of an error being raised. -/
theorem claim6_cycle_false (s : List ℤ) (cyc : List ℕ)
    (hvalid : ∀ i, 1 ≤ i → i < s.length →
      0 ≤ s.getD i 0 ∧ s.getD i 0 < (s.length : ℤ))
    (hne : cyc ≠ [])
    (hmem : ∀ i ∈ cyc, 1 ≤ i ∧ i < s.length)
    (hclosed : ∀ i ∈ cyc, (s.getD i 0).toNat ∈ cyc) :
    istree s = some false := by
  obtain ⟨i0, hi0⟩ : ∃ i, i ∈ cyc := by
    cases cyc with
    | nil => exact absurd rfl hne
    | cons a l => exact ⟨a, List.mem_cons_self a l⟩
  have hi0b := hmem i0 hi0
  have hlen0 : ¬ s.length = 0 := by omega
  have htekst : ∀ i, 1 ≤ i → (s.set 0 (-1)).getD i 0 = s.getD i 0 := by
    intro i h1
    simp [List.getD_eq_getElem?_getD, List.getElem?_set_ne (show (0 : ℕ) ≠ i by omega)]
  have hleg : headsLegal (s.set 0 (-1)) = true := by
    rw [headsLegal, List.all_eq_true]
    intro i hi
    rw [List.mem_range'_1] at hi
    simp only [List.length_set] at hi
    have hv := hvalid i hi.1 (by omega)
    rw [decide_eq_true_eq, htekst i hi.1]
    simp only [List.length_set]
    omega
  rw [istree, if_neg hlen0, if_pos hleg]
  set n := (s.set 0 (-1)).length with hn
  have hns : n = s.length := by rw [hn, List.length_set]
  set par := fun c => effIdx n ((s.set 0 (-1)).getD c 0) with hpar
  have hparval : ∀ c, 1 ≤ c → c < n → par c = (s.getD c 0).toNat := by
    intro c h1 h2
    rw [hpar]
    simp only
    rw [htekst c h1, effIdx, if_neg]
    have := hvalid c h1 (by omega)
    omega
  have hparlt : ∀ c, 1 ≤ c → c < n → par c < n := by
    intro c h1 h2
    rw [hparval c h1 h2]
    have := hvalid c h1 (by omega)
    omega
  set g := buildNodes par n with hg
  have hclosedP : ∀ node c, node ∉ cyc →
      (c ∈ (g.getD node default).lefts ∨ c ∈ (g.getD node default).rights) →
      c ∉ cyc := by
    intro node c hnode hc hccyc
    by_cases hnd : node < n
    · rw [hg, buildNodes_getD par n node hnd hparlt] at hc
      have hcmem : c ∈ List.range' 1 (n - 1) ∧ par c = node := by
        rcases hc with hc | hc <;>
        · have := List.mem_filter.mp hc
          refine ⟨this.1, ?_⟩
          have hb := this.2
          rw [Bool.and_eq_true, beq_iff_eq] at hb
          exact hb.1
      have hc1 : 1 ≤ c := by
        have := List.mem_range'_1.mp hcmem.1
        omega
      have hc2 : c < n := by
        have := List.mem_range'_1.mp hcmem.1
        omega
      have := hclosed c hccyc
      rw [← hparval c hc1 hc2, hcmem.2] at this
      exact hnode this
    · have hgd : g.getD node default = default := by
        apply List.getD_eq_default
        rw [hg, buildNodes_length]
        omega
      rw [hgd] at hc
      rcases hc with hc | hc <;> simp [default] at hc
  simp only [judgeLegal]
  by_cases hroot : ((g.getD 0 default).lefts ++ (g.getD 0 default).rights).length ≠ 1
  · rw [if_pos hroot]
  · rw [if_neg hroot]
    have h0cyc : (0 : ℕ) ∉ cyc := by
      intro h
      have := hmem 0 h
      omega
    have htrav := inorderF_closed g (· ∉ cyc) hclosedP (n + 1)
      (List.replicate n false) 0 h0cyc
    have : (inorderF g (n + 1) (List.replicate n false) 0).1 ≠ List.range n := by
      intro heq
      have : i0 ∈ (inorderF g (n + 1) (List.replicate n false) 0).1 := by
        rw [heq, List.mem_range]
        omega
      exact htrav i0 this hi0
    rw [decide_eq_false this]

/-- Witness for C6: tokens 1 and 2 parent each other, a two-cycle. -/
theorem claim6_cycle_false_witness : istree [0, 2, 1] = some false :=
  claim6_cycle_false [0, 2, 1] [1, 2] (by decide) (by decide) (by decide) (by decide)

/-! ### Claim C2: characterisation of the validator -/

theorem inorderMany_congr (f f2 : List Bool → ℕ → List ℕ × List Bool)
    (h : ∀ v c, f v c = f2 v c) :
    ∀ cs v, inorderMany f v cs = inorderMany f2 v cs := by
  intro cs
  induction cs with
  | nil => intro v; rfl
  | cons c cs ih => intro v; rw [inorderMany, inorderMany, h, ih]

theorem inorderF_congr (g g2 : List PNode)
    (h : ∀ node, g.getD node default = g2.getD node default) :
    ∀ fl v node, inorderF g fl v node = inorderF g2 fl v node := by
  intro fl
  induction fl with
  | zero => intro v node; rfl
  | succ fl ih =>
    intro v node
    have hm := inorderMany_congr (inorderF g fl) (inorderF g2 fl)
      (fun v c => ih v c)
    rw [inorderF, inorderF]
    simp only [h, hm]

/-- C2: under valid non-root entries, `istree` returns `some true` exactly
when the root has one dependent and the recursive in-order traversal
(left-dependent ids ascending, the node, right-dependent ids ascending)
reproduces `0..n-1`; and a head array with two tokens parented directly to
the root is rejected. -/
theorem claim2_istree_characterization :
    (∀ s : List ℤ,
      (∀ i, 1 ≤ i → i < s.length →
        0 ≤ s.getD i 0 ∧ s.getD i 0 < (s.length : ℤ)) →
      (istree s = some true ↔
        rootDeps s = 1 ∧ specTravTop s = List.range s.length)) ∧
      istree [0, 0, 0] = some false := by
  constructor
  · intro s hvalid
    by_cases hlen : s.length = 0
    · rw [istree, if_pos hlen]
      have hrd : rootDeps s = 0 := by
        rw [rootDeps, hlen]
        rfl
      simp [hrd]
    · have htekst : ∀ i, 1 ≤ i → (s.set 0 (-1)).getD i 0 = s.getD i 0 := by
        intro i h1
        simp [List.getD_eq_getElem?_getD,
          List.getElem?_set_ne (show (0 : ℕ) ≠ i by omega)]
      have hleg : headsLegal (s.set 0 (-1)) = true := by
        rw [headsLegal, List.all_eq_true]
        intro i hi
        rw [List.mem_range'_1] at hi
        simp only [List.length_set] at hi
        have hv := hvalid i hi.1 (by omega)
        rw [decide_eq_true_eq, htekst i hi.1]
        simp only [List.length_set]
        omega
      rw [istree, if_neg hlen, if_pos hleg]
      set n := (s.set 0 (-1)).length with hn
      have hns : n = s.length := by rw [hn, List.length_set]
      set par := fun c => effIdx n ((s.set 0 (-1)).getD c 0) with hpar
      have hparval : ∀ c, 1 ≤ c → c < n → par c = (s.getD c 0).toNat := by
        intro c h1 h2
        rw [hpar]
        simp only
        rw [htekst c h1, effIdx, if_neg]
        have := hvalid c h1 (by omega)
        omega
      have hparlt : ∀ c, 1 ≤ c → c < n → par c < n := by
        intro c h1 h2
        rw [hparval c h1 h2]
        have := hvalid c h1 (by omega)
        omega
      set g := buildNodes par n with hg
      have hroot : g.getD 0 default =
          ⟨[], (List.range' 1 (n - 1)).filter
            (fun c => par c == 0 && decide (0 < c))⟩ := by
        rw [hg, buildNodes_getD par n 0 (by omega) hparlt]
        have : (List.range' 1 (n - 1)).filter
            (fun c => par c == 0 && ! decide (0 < c)) = [] := by
          rw [List.filter_eq_nil_iff]
          intro a ha
          rw [List.mem_range'_1] at ha
          simp [show 0 < a by omega]
        rw [this]
      have hcount : ((g.getD 0 default).lefts ++ (g.getD 0 default).rights).length =
          rootDeps s := by
        rw [hroot]
        simp only [List.nil_append, rootDeps]
        congr 1
        rw [← hns]
        apply List.filter_congr
        intro c hc
        rw [List.mem_range'_1] at hc
        have h1 : 1 ≤ c := hc.1
        have h2 : c < n := by omega
        rw [hparval c h1 h2]
        have hv := hvalid c h1 (by omega)
        have h0c : decide (0 < c) = true := decide_eq_true (by omega)
        rw [h0c, Bool.and_true]
        by_cases hz : s.getD c 0 = 0
        · rw [hz]
          decide
        · have ht : ¬ (s.getD c 0).toNat = 0 := by omega
          rw [beq_eq_false_iff_ne.mpr ht, beq_eq_false_iff_ne.mpr hz]
      have hspecnode : ∀ node, g.getD node default =
          (specNodes s).getD node default := by
        intro node
        by_cases hnd : node < n
        · have hrhs : (specNodes s).getD node default =
              ⟨specKidsL s node, specKidsR s node⟩ := by
            rw [specNodes, List.getD_eq_getElem?_getD, List.getElem?_map,
              List.getElem?_range (by omega : node < s.length)]
            rfl
          rw [hg, buildNodes_getD par n node hnd hparlt, hrhs]
          have hL : (List.range' 1 (n - 1)).filter
              (fun c => par c == node && ! decide (node < c)) =
              specKidsL s node := by
            rw [specKidsL, ← hns]
            apply List.filter_congr
            intro c hc
            rw [List.mem_range'_1] at hc
            rw [hparval c hc.1 (by omega)]
          have hR : (List.range' 1 (n - 1)).filter
              (fun c => par c == node && decide (node < c)) =
              specKidsR s node := by
            rw [specKidsR, ← hns]
            apply List.filter_congr
            intro c hc
            rw [List.mem_range'_1] at hc
            rw [hparval c hc.1 (by omega)]
          rw [hL, hR]
        · rw [List.getD_eq_default _ _ (by rw [hg, buildNodes_length]; omega),
            List.getD_eq_default _ _
              (by rw [specNodes, List.length_map, List.length_range]; omega)]
      have htrav : (inorderF g (n + 1) (List.replicate n false) 0).1 =
          specTravTop s := by
        rw [specTravTop, ← hns]
        rw [inorderF_congr g (specNodes s) hspecnode]
      rw [Option.some_inj, judgeLegal]
      simp only [hcount, htrav]
      by_cases h1 : rootDeps s = 1
      · rw [if_neg (by omega), h1]
        rw [← hns]
        simp
      · rw [if_pos (by omega)]
        simp [h1]
  · decide

/-- Witness for C2 on a concrete valid head array. -/
theorem claim2_istree_characterization_witness :
    istree [0, 0, 1] = some true ↔
      rootDeps [0, 0, 1] = 1 ∧ specTravTop [0, 0, 1] = List.range 3 :=
  claim2_istree_characterization.1 [0, 0, 1] (by decide)

/-! ### Claims C3 and C7: cluster structure of `kmeans` -/

theorem mem_uniqVals {x : List ℚ} {q : ℚ} : q ∈ uniqVals x ↔ q ∈ x := by
  rw [uniqVals, List.mem_dedup]
  exact (List.perm_insertionSort _ x).mem_iff

theorem nodup_uniqVals (x : List ℚ) : (uniqVals x).Nodup :=
  List.nodup_dedup _

theorem argminF_lt_length {α : Type} [LinearOrder α] [Inhabited α] :
    ∀ l : List α, l ≠ [] → argminF l < l.length
  | [], h => absurd rfl h
  | [_], _ => by simp [argminF]
  | a :: b :: r, _ => by
    rw [argminF]
    split
    · simp
    · have ih := argminF_lt_length (b :: r) (by simp)
      simp only [List.length_cons] at *
      omega

theorem assignY_len (d c : List ℚ) : (assignY d c).2.length = d.length := by
  simp [assignY]

theorem assignY_lt (d c : List ℚ) (hc : c ≠ []) :
    ∀ ℓ ∈ (assignY d c).2, ℓ < c.length := by
  intro ℓ hl
  rw [assignY] at hl
  simp only [List.mem_map] at hl
  obtain ⟨v, _, rfl⟩ := hl
  have h1 : (c.map fun cv => |v - cv|) ≠ [] := by simp [hc]
  have h2 := argminF_lt_length _ h1
  simpa using h2

theorem updateC_len (total : List ℚ) (f : List ℕ) (kk : ℕ) (y : List ℕ) :
    (updateC total f kk y).length = kk := by
  simp [updateC]

theorem kstep_inv (d total : List ℚ) (f : List ℕ) (kk : ℕ) (hkk : 1 ≤ kk)
    (s : KState) :
    (kstep d total f kk s).y.length = d.length ∧
      (kstep d total f kk s).c.length = kk ∧
      ∀ ℓ ∈ (kstep d total f kk s).y, ℓ < kk := by
  rw [kstep]
  refine ⟨assignY_len _ _, updateC_len _ _ _ _, ?_⟩
  intro ℓ hl
  have hne : updateC total f kk (repairAll s.dists kk s.y) ≠ [] := by
    intro h
    have h2 := updateC_len total f kk (repairAll s.dists kk s.y)
    rw [h] at h2
    simp at h2
    omega
  have h3 := assignY_lt d _ hne ℓ hl
  rwa [updateC_len] at h3

theorem kloop_inv (d total : List ℚ) (f : List ℕ) (kk : ℕ) (hkk : 1 ≤ kk) :
    ∀ fuel (old : Option (List ℚ)) (s : KState),
      s.y.length = d.length → (∀ ℓ ∈ s.y, ℓ < kk) →
      ((kloop d total f kk fuel old s).y.length = d.length ∧
        ∀ ℓ ∈ (kloop d total f kk fuel old s).y, ℓ < kk)
  | 0, _, _, h1, h2 => ⟨h1, h2⟩
  | fuel + 1, old, s, h1, h2 => by
    rw [kloop]
    split
    · exact ⟨h1, h2⟩
    · have hk := kstep_inv d total f kk hkk s
      exact kloop_inv d total f kk hkk fuel (some s.c) (kstep d total f kk s)
        hk.1 hk.2.2

/-- Facts about the reached loop state: the label list covers the distinct
values and all labels are below `min(len d, k)`. -/
theorem kmState_inv (perm : List ℕ) (fuel : ℕ) (x : List ℚ) (k : ℕ)
    (hx : x ≠ []) (hk : 1 ≤ k) (hperm : perm.length = (uniqVals x).length) :
    (kmState perm fuel x k).y.length = (uniqVals x).length ∧
      ∀ ℓ ∈ (kmState perm fuel x k).y, ℓ < min (uniqVals x).length k := by
  have hdnn : uniqVals x ≠ [] := by
    obtain ⟨a, ha⟩ := List.exists_mem_of_ne_nil x hx
    exact List.ne_nil_of_mem (mem_uniqVals.mpr ha)
  have hdlen : 1 ≤ (uniqVals x).length := by
    cases hu : uniqVals x with
    | nil => exact absurd hu hdnn
    | cons a l => simp
  have hkk : 1 ≤ min (uniqVals x).length k := by omega
  have hc0len : ((perm.map fun t => (uniqVals x).getD t 0).take k).length =
      min (uniqVals x).length k := by
    rw [List.length_take, List.length_map, hperm]
    omega
  apply kloop_inv _ _ _ _ hkk
  · exact assignY_len _ _
  · intro ℓ hl
    have hne : (perm.map fun t => (uniqVals x).getD t 0).take k ≠ [] := by
      intro h
      rw [h] at hc0len
      simp at hc0len
      omega
    have := assignY_lt _ _ hne ℓ hl
    omega

/-- The cluster list that `kmeans` returns, in terms of the reached state. -/
theorem kmeans_clusters_eq (perm : List ℕ) (fuel : ℕ) (x : List ℚ) (k : ℕ) :
    (kmeans perm fuel x k).2 =
      (List.insertionSort (· ≤ ·) (kmState perm fuel x k).y).dedup.map
        (fun i => (List.range
            (x.map fun q =>
              (kmState perm fuel x k).y.getD (invIdx (uniqVals x) q) 0).length).filter
          (fun t => (x.map fun q =>
              (kmState perm fuel x k).y.getD (invIdx (uniqVals x) q) 0).getD t 0 == i)) :=
  rfl

theorem invIdx_getElem (d : List ℚ) (q : ℚ) (h : invIdx d q < d.length) :
    d[invIdx d q] = q := by
  have h3 : (fun v => v == q) d[List.findIdx (fun v => v == q) d] = true :=
    @List.findIdx_getElem _ (fun v => v == q) d h
  simp only [beq_iff_eq] at h3
  exact h3

/-- C3: for every non-empty input and every `k ≥ 1` (and any random
initialisation permutation and iteration count), every input index appears
in exactly one returned cluster — the clusters partition `0..len(x)-1` with
no overlaps and no omissions. -/
theorem claim3_partition (x : List ℚ) (k fuel : ℕ) (perm : List ℕ)
    (hx : x ≠ []) (hk : 1 ≤ k) (hperm : perm.length = (uniqVals x).length)
    (idx : ℕ) (hidx : idx < x.length) :
    ∃ j, j < (kmeans perm fuel x k).2.length ∧
      idx ∈ (kmeans perm fuel x k).2.getD j [] ∧
      ∀ j2, j2 < (kmeans perm fuel x k).2.length →
        idx ∈ (kmeans perm fuel x k).2.getD j2 [] → j2 = j := by
  obtain ⟨hylen, hylt⟩ := kmState_inv perm fuel x k hx hk hperm
  rw [kmeans_clusters_eq]
  set s := kmState perm fuel x k with hs
  set d := uniqVals x with hd
  set yFull := x.map fun q => s.y.getD (invIdx d q) 0 with hyf
  set assigned := (List.insertionSort (· ≤ ·) s.y).dedup with hasg
  have hnodup : assigned.Nodup := List.nodup_dedup _
  have hyflen : yFull.length = x.length := by rw [hyf, List.length_map]
  have hinvlt : invIdx d x[idx] < s.y.length := by
    rw [hylen]
    apply List.findIdx_lt_length_of_exists
    exact ⟨x[idx], mem_uniqVals.mpr (List.getElem_mem hidx), by simp⟩
  have hyfidx : yFull.getD idx 0 = s.y[invIdx d x[idx]] := by
    rw [hyf, List.getD_eq_getElem _ _ (by rw [List.length_map]; omega),
      List.getElem_map, List.getD_eq_getElem _ _ hinvlt]
  have hl0mem : s.y[invIdx d x[idx]] ∈ assigned := by
    rw [hasg, List.mem_dedup, (List.perm_insertionSort _ _).mem_iff]
    exact List.getElem_mem hinvlt
  obtain ⟨j, hj, hjeq⟩ := List.mem_iff_getElem.mp hl0mem
  refine ⟨j, ?_, ?_, ?_⟩
  · rw [List.length_map]
    exact hj
  · rw [List.getD_eq_getElem _ _ (by rw [List.length_map]; exact hj),
      List.getElem_map, List.mem_filter]
    constructor
    · rw [List.mem_range]
      omega
    · rw [hyfidx, hjeq]
      exact beq_self_eq_true _
  · intro j2 hj2 hmem2
    rw [List.length_map] at hj2
    rw [List.getD_eq_getElem _ _ (by rw [List.length_map]; exact hj2),
      List.getElem_map, List.mem_filter] at hmem2
    have h5 := hmem2.2
    rw [hyfidx, beq_iff_eq] at h5
    have h6 : assigned[j2] = assigned[j] := by rw [← h5, hjeq]
    exact (List.Nodup.getElem_inj_iff hnodup).mp h6

/-- Witness for C3: `x = [1, 1, 100]`, `k = 2`, index 0. -/
theorem claim3_partition_witness :
    ∃ j, j < (kmeans [0, 1] 0 [1, 1, 100] 2).2.length ∧
      0 ∈ (kmeans [0, 1] 0 [1, 1, 100] 2).2.getD j [] ∧
      ∀ j2, j2 < (kmeans [0, 1] 0 [1, 1, 100] 2).2.length →
        0 ∈ (kmeans [0, 1] 0 [1, 1, 100] 2).2.getD j2 [] → j2 = j :=
  claim3_partition [1, 1, 100] 2 0 [0, 1] (by decide) (by decide)
    (by with_unfolding_all rfl) 0 (by decide)

/-- C7: the returned cluster count never exceeds `min(k, number of distinct
values)` — when `k` exceeds the number of distinct values the effective
count is silently capped, with no exception — and every returned cluster is
non-empty. -/
theorem claim7_cluster_count (x : List ℚ) (k fuel : ℕ) (perm : List ℕ)
    (hx : x ≠ []) (hk : 1 ≤ k) (hperm : perm.length = (uniqVals x).length) :
    (kmeans perm fuel x k).2.length ≤ min k (uniqVals x).length ∧
      ∀ cl ∈ (kmeans perm fuel x k).2, cl ≠ [] := by
  obtain ⟨hylen, hylt⟩ := kmState_inv perm fuel x k hx hk hperm
  rw [kmeans_clusters_eq]
  set s := kmState perm fuel x k with hs
  set d := uniqVals x with hd
  set yFull := x.map fun q => s.y.getD (invIdx d q) 0 with hyf
  set assigned := (List.insertionSort (· ≤ ·) s.y).dedup with hasg
  have hnodup : assigned.Nodup := List.nodup_dedup _
  have hmemasg : ∀ ℓ, ℓ ∈ assigned ↔ ℓ ∈ s.y := by
    intro ℓ
    rw [hasg, List.mem_dedup]
    exact (List.perm_insertionSort _ _).mem_iff
  constructor
  · rw [List.length_map]
    have h2 : assigned.toFinset.card = assigned.length :=
      List.toFinset_card_of_nodup hnodup
    rw [← h2]
    have h3 : assigned.toFinset ⊆ Finset.range (min d.length k) := by
      intro a ha
      rw [List.mem_toFinset] at ha
      rw [Finset.mem_range]
      exact hylt a ((hmemasg a).mp ha)
    have h4 := Finset.card_le_card h3
    rw [Finset.card_range] at h4
    omega
  · intro cl hcl
    rw [List.mem_map] at hcl
    obtain ⟨ℓ, hlmem, rfl⟩ := hcl
    have hl : ℓ ∈ s.y := (hmemasg ℓ).mp hlmem
    obtain ⟨vpos, hvpos, hveq⟩ := List.mem_iff_getElem.mp hl
    have hvd : vpos < d.length := by rw [← hylen]; exact hvpos
    have hq : d[vpos] ∈ x := mem_uniqVals.mp (List.getElem_mem hvd)
    obtain ⟨i0, hi0, hieq⟩ := List.mem_iff_getElem.mp hq
    have hfind : invIdx d x[i0] < d.length := by
      apply List.findIdx_lt_length_of_exists
      refine ⟨x[i0], ?_, by simp⟩
      rw [hieq]
      exact List.getElem_mem hvd
    have hfval : d[invIdx d x[i0]] = x[i0] := invIdx_getElem d x[i0] hfind
    have hdnodup : d.Nodup := by rw [hd]; exact nodup_uniqVals x
    have hsame : invIdx d x[i0] = vpos := by
      apply (List.Nodup.getElem_inj_iff hdnodup).mp
      rw [hfval]
      exact hieq
    apply List.ne_nil_of_mem
    show i0 ∈ _
    rw [List.mem_filter]
    constructor
    · rw [List.mem_range, List.length_map]
      exact hi0
    · have h7 : yFull.getD i0 0 = ℓ := by
        rw [hyf, List.getD_eq_getElem _ _ (by rw [List.length_map]; exact hi0),
          List.getElem_map, hsame, List.getD_eq_getElem _ _ hvpos, hveq]
      rw [h7]
      simp

/-- Witness for C7: `x = [1, 1, 100]`, `k = 7` exceeds the two distinct
values. -/
theorem claim7_cluster_count_witness :
    (kmeans [1, 0] 0 [1, 1, 100] 7).2.length ≤ min 7 (uniqVals [1, 1, 100]).length ∧
      ∀ cl ∈ (kmeans [1, 0] 0 [1, 1, 100] 7).2, cl ≠ [] :=
  claim7_cluster_count [1, 1, 100] 7 0 [1, 0] (by decide) (by decide)
    (by with_unfolding_all rfl)

/-! ### dp interface lemmas -/

theorem foldl_pick_mem (rest : List (ℕ × WithBot ℚ)) :
    ∀ p, rest.foldl (fun a b => if a.2 < b.2 then b else a) p ∈ p :: rest := by
  induction rest with
  | nil => intro p; simp
  | cons q rest ih =>
    intro p
    rw [List.foldl_cons]
    rcases List.mem_cons.mp (ih (if p.2 < q.2 then q else p)) with h | h
    · rw [h]
      split <;> simp
    · simp [h]

theorem pickF_mem : ∀ l : List (ℕ × WithBot ℚ), l ≠ [] → pickF l ∈ l
  | [], h => absurd rfl h
  | p :: rest, _ => by
    rw [pickF]
    exact foldl_pick_mem rest p

theorem foldl_pick_head (l : List (ℕ × WithBot ℚ)) (x : ℕ × WithBot ℚ)
    (h : ∀ p ∈ l, ¬ x.2 < p.2) :
    l.foldl (fun a b => if a.2 < b.2 then b else a) x = x := by
  induction l with
  | nil => rfl
  | cons q rest ih =>
    rw [List.foldl_cons, if_neg (h q (List.mem_cons_self q rest))]
    exact ih fun p hp => h p (List.mem_cons_of_mem q hp)

theorem pickF_head (x : ℕ × WithBot ℚ) (l : List (ℕ × WithBot ℚ))
    (h : ∀ p ∈ l, ¬ x.2 < p.2) : pickF (x :: l) = x := by
  rw [pickF]
  exact foldl_pick_head l x h

theorem dpW_agree (L : ℕ) (S : ℕ → ℕ → ℚ) :
    ∀ w k i j, j - i ≤ w → dpW L S w k i j = dp L S k i j := by
  intro w
  induction w with
  | zero =>
    intro k i j h
    rw [dp]
    have h0 : j - i = 0 := by omega
    rw [h0]
  | succ w ih =>
    intro k i j h
    by_cases h2 : j - i ≤ w
    · rw [← ih k i j h2, dpW, if_pos h2]
    · have h3 : j - i = w + 1 := by omega
      rw [dp, h3]

theorem dp_base (L : ℕ) (S : ℕ → ℕ → ℚ) (k : SpanKind) (i j : ℕ) (h : j ≤ i) :
    dp L S k i j = dpBase k i j := by
  rw [dp]
  have h0 : j - i = 0 := by omega
  rw [h0, dpW]

theorem dp_il_eq (L : ℕ) (S : ℕ → ℕ → ℚ) (i j : ℕ) (h : i < j) :
    dp L S SpanKind.il i j =
      pickF ((List.range' i (j - i)).map fun r =>
        (r, (dp L S SpanKind.cr i r).2 + (dp L S SpanKind.cl (r + 1) j).2 +
          (S i j : WithBot ℚ))) := by
  obtain ⟨w, hw⟩ : ∃ w, j - i = w + 1 := ⟨j - i - 1, by omega⟩
  rw [dp, hw, dpW, if_neg (show ¬ j - i ≤ w by omega), if_pos hw]
  simp only [iCands]
  rw [hw]
  congr 1
  apply List.map_congr_left
  intro r hr
  rw [List.mem_range'_1] at hr
  rw [dpW_agree L S w SpanKind.cr i r (by omega),
    dpW_agree L S w SpanKind.cl (r + 1) j (by omega)]

theorem dp_ir_eq (L : ℕ) (S : ℕ → ℕ → ℚ) (i j : ℕ) (h : i < j) :
    dp L S SpanKind.ir i j =
      pickF ((List.range' i (j - i)).map fun r =>
        (r, (dp L S SpanKind.cr i r).2 + (dp L S SpanKind.cl (r + 1) j).2 +
          (S j i : WithBot ℚ))) := by
  obtain ⟨w, hw⟩ : ∃ w, j - i = w + 1 := ⟨j - i - 1, by omega⟩
  rw [dp, hw, dpW, if_neg (show ¬ j - i ≤ w by omega), if_pos hw]
  simp only [iCands]
  rw [hw]
  congr 1
  apply List.map_congr_left
  intro r hr
  rw [List.mem_range'_1] at hr
  rw [dpW_agree L S w SpanKind.cr i r (by omega),
    dpW_agree L S w SpanKind.cl (r + 1) j (by omega)]

theorem iVal_eq (L : ℕ) (S : ℕ → ℕ → ℚ) (w : ℕ) (s : ℚ) (i j : ℕ)
    (h1 : i < j) (h2 : j - i ≤ w + 1) :
    iVal (fun k a b => (dpW L S w k a b).2) s i j =
      (pickF ((List.range' i (j - i)).map fun r =>
        (r, (dp L S SpanKind.cr i r).2 + (dp L S SpanKind.cl (r + 1) j).2 +
          (s : WithBot ℚ)))).2 := by
  simp only [iVal, iCands]
  congr 2
  apply List.map_congr_left
  intro r hr
  rw [List.mem_range'_1] at hr
  rw [dpW_agree L S w SpanKind.cr i r (by omega),
    dpW_agree L S w SpanKind.cl (r + 1) j (by omega)]

theorem dp_cl_eq (L : ℕ) (S : ℕ → ℕ → ℚ) (i j : ℕ) (h : i < j) :
    dp L S SpanKind.cl i j =
      pickF ((List.range' i (j - i)).map fun r =>
        (r, (dp L S SpanKind.cl i r).2 + (dp L S SpanKind.il r j).2)) := by
  obtain ⟨w, hw⟩ : ∃ w, j - i = w + 1 := ⟨j - i - 1, by omega⟩
  rw [dp, hw, dpW, if_neg (show ¬ j - i ≤ w by omega), if_pos hw]
  show pickF ((List.range' i (j - i)).map fun r =>
      (r, (dpW L S w SpanKind.cl i r).2 +
        iVal (fun k a b => (dpW L S w k a b).2) (S r j) r j)) = _
  rw [hw]
  congr 1
  apply List.map_congr_left
  intro r hr
  rw [List.mem_range'_1] at hr
  rw [dpW_agree L S w SpanKind.cl i r (by omega)]
  rw [iVal_eq L S w (S r j) r j (by omega) (by omega)]
  rw [← dp_il_eq L S r j (by omega)]

theorem dp_cr_eq (L : ℕ) (S : ℕ → ℕ → ℚ) (i j : ℕ) (h : i < j) :
    dp L S SpanKind.cr i j =
      ((pickF ((List.range' (i + 1) (j - i)).map fun r =>
          (r, (dp L S SpanKind.ir i r).2 + (dp L S SpanKind.cr r j).2))).1,
        if i = 0 ∧ j ≠ L then ⊥ else
          (pickF ((List.range' (i + 1) (j - i)).map fun r =>
            (r, (dp L S SpanKind.ir i r).2 + (dp L S SpanKind.cr r j).2))).2) := by
  obtain ⟨w, hw⟩ : ∃ w, j - i = w + 1 := ⟨j - i - 1, by omega⟩
  rw [dp, hw, dpW, if_neg (show ¬ j - i ≤ w by omega), if_pos hw]
  show ((pickF ((List.range' (i + 1) (j - i)).map fun r =>
      (r, iVal (fun k a b => (dpW L S w k a b).2) (S r i) i r +
        (dpW L S w SpanKind.cr r j).2))).1,
    if i = 0 ∧ j ≠ L then ⊥ else
      (pickF ((List.range' (i + 1) (j - i)).map fun r =>
        (r, iVal (fun k a b => (dpW L S w k a b).2) (S r i) i r +
          (dpW L S w SpanKind.cr r j).2))).2) = _
  have hmap : (List.range' (i + 1) (j - i)).map
      (fun r => (r, iVal (fun k a b => (dpW L S w k a b).2) (S r i) i r +
        (dpW L S w SpanKind.cr r j).2)) =
      (List.range' (i + 1) (j - i)).map
      (fun r => (r, (dp L S SpanKind.ir i r).2 + (dp L S SpanKind.cr r j).2)) := by
    apply List.map_congr_left
    intro r hr
    rw [List.mem_range'_1] at hr
    rw [dpW_agree L S w SpanKind.cr r j (by omega)]
    rw [iVal_eq L S w (S r i) i r (by omega) (by omega)]
    rw [← dp_ir_eq L S i r (by omega)]
  rw [hmap, hw]

/-! ### Structural facts about the stored split points and table values -/

theorem dp_paths (L : ℕ) (S : ℕ → ℕ → ℚ) (i j : ℕ) (h : i < j) :
    (i ≤ (dp L S SpanKind.il i j).1 ∧ (dp L S SpanKind.il i j).1 < j) ∧
    (i ≤ (dp L S SpanKind.ir i j).1 ∧ (dp L S SpanKind.ir i j).1 < j) ∧
    (i ≤ (dp L S SpanKind.cl i j).1 ∧ (dp L S SpanKind.cl i j).1 < j) ∧
    (i < (dp L S SpanKind.cr i j).1 ∧ (dp L S SpanKind.cr i j).1 ≤ j) := by
  refine ⟨?_, ?_, ?_, ?_⟩
  · rw [dp_il_eq L S i j h]
    have hm := pickF_mem ((List.range' i (j - i)).map fun r =>
      (r, (dp L S SpanKind.cr i r).2 + (dp L S SpanKind.cl (r + 1) j).2 +
        (S i j : WithBot ℚ))) (by simp; omega)
    rw [List.mem_map] at hm
    obtain ⟨r, hr, heq⟩ := hm
    rw [List.mem_range'_1] at hr
    rw [← heq]
    simp only
    omega
  · rw [dp_ir_eq L S i j h]
    have hm := pickF_mem ((List.range' i (j - i)).map fun r =>
      (r, (dp L S SpanKind.cr i r).2 + (dp L S SpanKind.cl (r + 1) j).2 +
        (S j i : WithBot ℚ))) (by simp; omega)
    rw [List.mem_map] at hm
    obtain ⟨r, hr, heq⟩ := hm
    rw [List.mem_range'_1] at hr
    rw [← heq]
    simp only
    omega
  · rw [dp_cl_eq L S i j h]
    have hm := pickF_mem ((List.range' i (j - i)).map fun r =>
      (r, (dp L S SpanKind.cl i r).2 + (dp L S SpanKind.il r j).2)) (by simp; omega)
    rw [List.mem_map] at hm
    obtain ⟨r, hr, heq⟩ := hm
    rw [List.mem_range'_1] at hr
    rw [← heq]
    simp only
    omega
  · rw [dp_cr_eq L S i j h]
    have hm := pickF_mem ((List.range' (i + 1) (j - i)).map fun r =>
      (r, (dp L S SpanKind.ir i r).2 + (dp L S SpanKind.cr r j).2)) (by simp; omega)
    rw [List.mem_map] at hm
    obtain ⟨r, hr, heq⟩ := hm
    rw [List.mem_range'_1] at hr
    simp only
    rw [← heq]
    simp only
    omega

theorem tablesOk (L : ℕ) (S : ℕ → ℕ → ℚ) : TOk (pIlook L S) (pClook L S) := by
  intro a b hab
  have hp := dp_paths L S a b hab
  refine ⟨?_, ?_, ?_, ?_⟩
  · rw [pIlook, if_pos hab]
    exact hp.2.1
  · rw [pIlook, if_neg (by omega)]
    exact hp.1
  · rw [pClook, if_pos hab]
    exact hp.2.2.2
  · rw [pClook, if_neg (by omega)]
    exact hp.2.2.1

theorem dp_ne_bot (L : ℕ) (S : ℕ → ℕ → ℚ) :
    ∀ n i j, 1 ≤ i → i ≤ j → j - i ≤ n →
      ((dp L S SpanKind.cl i j).2 ≠ ⊥ ∧ (dp L S SpanKind.cr i j).2 ≠ ⊥) ∧
      (i < j → (dp L S SpanKind.il i j).2 ≠ ⊥ ∧ (dp L S SpanKind.ir i j).2 ≠ ⊥) := by
  intro n
  induction n with
  | zero =>
    intro i j h1 h2 h3
    have hji : j = i := by omega
    subst hji
    constructor
    · rw [dp_base L S SpanKind.cl j j (le_refl j), dp_base L S SpanKind.cr j j (le_refl j)]
      constructor <;> simp [dpBase]
    · intro hc
      omega
  | succ n ih =>
    intro i j h1 h2 h3
    by_cases hw : j - i ≤ n
    · exact ih i j h1 h2 hw
    · have hij : i < j := by omega
      have hil : (dp L S SpanKind.il i j).2 ≠ ⊥ := by
        rw [dp_il_eq L S i j hij]
        have hm := pickF_mem ((List.range' i (j - i)).map fun r =>
          (r, (dp L S SpanKind.cr i r).2 + (dp L S SpanKind.cl (r + 1) j).2 +
            (S i j : WithBot ℚ))) (by simp; omega)
        rw [List.mem_map] at hm
        obtain ⟨r, hr, heq⟩ := hm
        rw [List.mem_range'_1] at hr
        rw [← heq]
        simp only [Ne, WithBot.add_eq_bot]
        push_neg
        refine ⟨?_, WithBot.coe_ne_bot⟩
        exact ⟨(ih i r h1 (by omega) (by omega)).1.2,
          (ih (r + 1) j (by omega) (by omega) (by omega)).1.1⟩
      have hir : (dp L S SpanKind.ir i j).2 ≠ ⊥ := by
        rw [dp_ir_eq L S i j hij]
        have hm := pickF_mem ((List.range' i (j - i)).map fun r =>
          (r, (dp L S SpanKind.cr i r).2 + (dp L S SpanKind.cl (r + 1) j).2 +
            (S j i : WithBot ℚ))) (by simp; omega)
        rw [List.mem_map] at hm
        obtain ⟨r, hr, heq⟩ := hm
        rw [List.mem_range'_1] at hr
        rw [← heq]
        simp only [Ne, WithBot.add_eq_bot]
        push_neg
        refine ⟨?_, WithBot.coe_ne_bot⟩
        exact ⟨(ih i r h1 (by omega) (by omega)).1.2,
          (ih (r + 1) j (by omega) (by omega) (by omega)).1.1⟩
      refine ⟨⟨?_, ?_⟩, fun _ => ⟨hil, hir⟩⟩
      · rw [dp_cl_eq L S i j hij]
        have hm := pickF_mem ((List.range' i (j - i)).map fun r =>
          (r, (dp L S SpanKind.cl i r).2 + (dp L S SpanKind.il r j).2)) (by simp; omega)
        rw [List.mem_map] at hm
        obtain ⟨r, hr, heq⟩ := hm
        rw [List.mem_range'_1] at hr
        rw [← heq]
        simp only [Ne, WithBot.add_eq_bot]
        push_neg
        refine ⟨(ih i r h1 (by omega) (by omega)).1.1, ?_⟩
        by_cases hri : r = i
        · subst hri
          exact hil
        · exact ((ih r j (by omega) (by omega) (by omega)).2 (by omega)).1
      · rw [dp_cr_eq L S i j hij]
        simp only
        rw [if_neg (by omega)]
        have hm := pickF_mem ((List.range' (i + 1) (j - i)).map fun r =>
          (r, (dp L S SpanKind.ir i r).2 + (dp L S SpanKind.cr r j).2)) (by simp; omega)
        rw [List.mem_map] at hm
        obtain ⟨r, hr, heq⟩ := hm
        rw [List.mem_range'_1] at hr
        rw [← heq]
        simp only [Ne, WithBot.add_eq_bot]
        push_neg
        constructor
        · by_cases hrj : r = j
          · subst hrj
            exact hir
          · exact ((ih i r h1 (by omega) (by omega)).2 (by omega)).2
        · exact (ih r j (by omega) (by omega) (by omega)).1.2

theorem dp_ir_root_path (L : ℕ) (S : ℕ → ℕ → ℚ) (r : ℕ) (h1 : 1 ≤ r) (h2 : r ≤ L) :
    (dp L S SpanKind.ir 0 r).1 = 0 := by
  rw [dp_ir_eq L S 0 r (by omega)]
  rw [show r - 0 = (r - 1) + 1 by omega, List.range'_succ, List.map_cons]
  rw [pickF_head]
  · intro p hp
    rw [List.mem_map] at hp
    obtain ⟨r2, hr2, heq⟩ := hp
    rw [List.mem_range'_1] at hr2
    rw [← heq]
    have hbot : (dp L S SpanKind.cr 0 r2).2 = ⊥ :=
      claim9_root_mask L S r2 (by omega) (by omega)
    simp only [hbot, WithBot.bot_add]
    exact not_lt.mpr bot_le

/-! ### The assignments produced by backtracking -/

theorem spanDeps_le (i j : ℕ) (h : i ≤ j) :
    spanDeps i j = List.range' (i + 1) (j - i) := by
  rw [spanDeps, if_pos h]

theorem spanDeps_gt (i j : ℕ) (h : ¬ i ≤ j) :
    spanDeps i j = List.range' j (i - j) := by
  rw [spanDeps, if_neg h]

theorem range'_glue (s m1 m2 t : ℕ) (h1 : t = s + m1) :
    List.range' s m1 ++ List.range' t m2 = List.range' s (m1 + m2) := by
  subst h1
  have happ := List.range'_append s m1 m2 1
  rw [Nat.one_mul] at happ
  rw [happ, Nat.add_comm m2 m1]

/-- Dependents and heads recorded by the backtrack recursion: the dependents
enumerate the span's interior-plus-far-end exactly once, and all recorded
ids stay inside the span. -/
theorem btArcs_spec (pI pC : ℕ → ℕ → ℕ) (hT : TOk pI pC) :
    ∀ fuel i j cpl,
      2 * (max i j - min i j) + cond cpl 1 0 ≤ fuel →
      ((btArcs pI pC fuel i j cpl).map Prod.fst).Perm (spanDeps i j) ∧
      ∀ p ∈ btArcs pI pC fuel i j cpl,
        min i j ≤ p.1 ∧ p.1 ≤ max i j ∧ min i j ≤ p.2 ∧ p.2 ≤ max i j := by
  intro fuel
  induction fuel with
  | zero =>
    intro i j cpl hb
    have hij : i = j := by
      cases cpl <;> simp only [cond_true, cond_false] at hb <;> omega
    subst hij
    rw [btArcs]
    refine ⟨?_, ?_⟩
    · rw [spanDeps_le i i (le_refl i)]
      simp
    · intro p hp
      simp at hp
  | succ fuel ih =>
    intro i j cpl hb
    by_cases hij : i = j
    · subst hij
      rw [btArcs, if_pos rfl]
      refine ⟨?_, ?_⟩
      · rw [spanDeps_le i i (le_refl i)]
        simp
      · intro p hp
        simp at hp
    · rw [btArcs, if_neg hij]
      by_cases hc : cpl = true
      · subst hc
        simp only [cond_true] at hb
        rw [if_pos rfl]
        set r := pC i j with hrdef
        rcases Nat.lt_or_ge i j with hlt | hge
        · have hrb : i < r ∧ r ≤ j := (hT i j hlt).2.2.1
          have h1 := ih i r false (by simp only [cond_false]; omega)
          have h2 := ih r j true (by simp only [cond_true]; omega)
          refine ⟨?_, ?_⟩
          · rw [List.map_append]
            have e1 : spanDeps i r = List.range' (i + 1) (r - i) :=
              spanDeps_le i r (by omega)
            have e2 : spanDeps r j = List.range' (r + 1) (j - r) := by
              rcases Nat.eq_or_lt_of_le hrb.2 with h | h
              · rw [h, spanDeps_le j j (le_refl j)]
              · exact spanDeps_le r j (by omega)
            have e3 : spanDeps i j = List.range' (i + 1) (j - i) :=
              spanDeps_le i j (by omega)
            rw [e1] at h1
            rw [e2] at h2
            rw [e3]
            have hglue := range'_glue (i + 1) (r - i) (j - r) (r + 1) (by omega)
            rw [show (r - i) + (j - r) = j - i by omega] at hglue
            rw [← hglue]
            exact h1.1.append h2.1
          · intro p hp
            rw [List.mem_append] at hp
            rcases hp with hp | hp
            · have := h1.2 p hp
              omega
            · have := h2.2 p hp
              omega
        · have hgt : j < i := by omega
          have hrb : j ≤ r ∧ r < i := (hT j i hgt).2.2.2
          have h1 := ih i r false (by simp only [cond_false]; omega)
          have h2 := ih r j true (by simp only [cond_true]; omega)
          refine ⟨?_, ?_⟩
          · rw [List.map_append]
            have e1 : spanDeps i r = List.range' r (i - r) :=
              spanDeps_gt i r (by omega)
            have e2 : spanDeps r j = List.range' j (r - j) := by
              rcases Nat.eq_or_lt_of_le hrb.1 with h | h
              · rw [← h, spanDeps_le j j (le_refl j), Nat.sub_self]
                rfl
              · exact spanDeps_gt r j (by omega)
            have e3 : spanDeps i j = List.range' j (i - j) :=
              spanDeps_gt i j (by omega)
            rw [e1] at h1
            rw [e2] at h2
            rw [e3]
            have hglue := range'_glue j (r - j) (i - r) r (by omega)
            rw [show (r - j) + (i - r) = i - j by omega] at hglue
            rw [← hglue]
            exact (h1.1.append h2.1).trans List.perm_append_comm
          · intro p hp
            rw [List.mem_append] at hp
            rcases hp with hp | hp
            · have := h1.2 p hp
              omega
            · have := h2.2 p hp
              omega
      · have hcf : cpl = false := by
          cases cpl
          · rfl
          · exact absurd rfl hc
        subst hcf
        simp only [cond_false] at hb
        rw [if_neg (by simp)]
        set r := pI i j with hrdef
        rcases Nat.lt_or_ge i j with hlt | hge
        · have hrb : i ≤ r ∧ r < j := (hT i j hlt).1
          have hmin : min i j = i := by omega
          have hmax : max i j = j := by omega
          rw [hmin, hmax]
          have h1 := ih i r true (by simp only [cond_true]; omega)
          have h2 := ih j (r + 1) true (by simp only [cond_true]; omega)
          refine ⟨?_, ?_⟩
          · rw [List.map_cons, List.map_append]
            have e1 : spanDeps i r = List.range' (i + 1) (r - i) := by
              rcases Nat.eq_or_lt_of_le hrb.1 with h | h
              · rw [← h, spanDeps_le i i (le_refl i)]
              · exact spanDeps_le i r (by omega)
            have e2 : spanDeps j (r + 1) = List.range' (r + 1) (j - (r + 1)) := by
              rcases Nat.eq_or_lt_of_le (show r + 1 ≤ j by omega) with h | h
              · rw [← h, spanDeps_le (r + 1) (r + 1) (le_refl (r + 1)), Nat.sub_self]
                rfl
              · exact spanDeps_gt j (r + 1) (by omega)
            have e3 : spanDeps i j = List.range' (i + 1) (j - i) :=
              spanDeps_le i j (by omega)
            rw [e1] at h1
            rw [e2] at h2
            rw [e3]
            have hglue := range'_glue (i + 1) (r - i) (j - (r + 1)) (r + 1) (by omega)
            rw [show (r - i) + (j - (r + 1)) = j - i - 1 by omega] at hglue
            have htail := range'_glue (i + 1) (j - i - 1) 1 j (by omega)
            rw [show (j - i - 1) + 1 = j - i by omega] at htail
            have hstep : List.range' j 1 = [j] := by simp [List.range']
            rw [hstep] at htail
            show (j :: ((btArcs pI pC fuel i r true).map Prod.fst ++
              (btArcs pI pC fuel j (r + 1) true).map Prod.fst)).Perm
                (List.range' (i + 1) (j - i))
            have hp1 : (j :: ((btArcs pI pC fuel i r true).map Prod.fst ++
                (btArcs pI pC fuel j (r + 1) true).map Prod.fst)).Perm
                  (j :: (List.range' (i + 1) (r - i) ++
                    List.range' (r + 1) (j - (r + 1)))) :=
              List.Perm.cons j (h1.1.append h2.1)
            rw [hglue] at hp1
            refine hp1.trans ?_
            rw [← htail]
            exact (List.perm_append_singleton j _).symm
          · intro p hp
            rw [List.mem_cons] at hp
            rcases hp with hp | hp
            · rw [hp]
              refine ⟨by omega, by omega, by omega, by omega⟩
            · rw [List.mem_append] at hp
              rcases hp with hp | hp
              · have := h1.2 p hp
                omega
              · have := h2.2 p hp
                omega
        · have hgt : j < i := by omega
          have hrb : j ≤ r ∧ r < i := (hT j i hgt).2.1
          have hmin : min i j = j := by omega
          have hmax : max i j = i := by omega
          rw [hmin, hmax]
          have h1 := ih j r true (by simp only [cond_true]; omega)
          have h2 := ih i (r + 1) true (by simp only [cond_true]; omega)
          refine ⟨?_, ?_⟩
          · rw [List.map_cons, List.map_append]
            have e1 : spanDeps j r = List.range' (j + 1) (r - j) := by
              rcases Nat.eq_or_lt_of_le hrb.1 with h | h
              · rw [← h, spanDeps_le j j (le_refl j)]
              · exact spanDeps_le j r (by omega)
            have e2 : spanDeps i (r + 1) = List.range' (r + 1) (i - (r + 1)) := by
              rcases Nat.eq_or_lt_of_le (show r + 1 ≤ i by omega) with h | h
              · rw [← h, spanDeps_le (r + 1) (r + 1) (le_refl (r + 1)), Nat.sub_self]
                rfl
              · exact spanDeps_gt i (r + 1) (by omega)
            have e3 : spanDeps i j = List.range' j (i - j) :=
              spanDeps_gt i j (by omega)
            rw [e1] at h1
            rw [e2] at h2
            rw [e3]
            have hglue := range'_glue (j + 1) (r - j) (i - (r + 1)) (r + 1) (by omega)
            rw [show (r - j) + (i - (r + 1)) = i - j - 1 by omega] at hglue
            have hcons := List.range'_succ j (i - j - 1) 1
            rw [show (i - j - 1) + 1 = i - j by omega] at hcons
            show (j :: ((btArcs pI pC fuel j r true).map Prod.fst ++
              (btArcs pI pC fuel i (r + 1) true).map Prod.fst)).Perm
                (List.range' j (i - j))
            have hp1 : (j :: ((btArcs pI pC fuel j r true).map Prod.fst ++
                (btArcs pI pC fuel i (r + 1) true).map Prod.fst)).Perm
                  (j :: (List.range' (j + 1) (r - j) ++
                    List.range' (r + 1) (i - (r + 1)))) :=
              List.Perm.cons j (h1.1.append h2.1)
            rw [hglue] at hp1
            rw [hcons]
            exact hp1
          · intro p hp
            rw [List.mem_cons] at hp
            rcases hp with hp | hp
            · rw [hp]
              refine ⟨by omega, by omega, by omega, by omega⟩
            · rw [List.mem_append] at hp
              rcases hp with hp | hp
              · have := h1.2 p hp
                omega
              · have := h2.2 p hp
                omega


/-! ### The stateful backtrack equals the arc list applied to the head array -/

theorem foldl_set_length (A : List (ℕ × ℕ)) (hs : List ℕ) :
    (A.foldl (fun h p => h.set p.1 p.2) hs).length = hs.length := by
  induction A generalizing hs with
  | nil => rfl
  | cons p A ih => rw [List.foldl_cons, ih, List.length_set]

theorem foldl_set_getD_not_mem (A : List (ℕ × ℕ)) (hs : List ℕ) (t : ℕ)
    (h : ∀ p ∈ A, p.1 ≠ t) :
    (A.foldl (fun h p => h.set p.1 p.2) hs).getD t 0 = hs.getD t 0 := by
  induction A generalizing hs with
  | nil => rfl
  | cons p A ih =>
    rw [List.foldl_cons, ih _ (fun q hq => h q (List.mem_cons_of_mem p hq))]
    simp [List.getD_eq_getElem?_getD,
      List.getElem?_set_ne (h p (List.mem_cons_self p A))]

theorem foldl_set_getD_mem (A : List (ℕ × ℕ)) (hs : List ℕ) (d hd : ℕ)
    (hnodup : (A.map Prod.fst).Nodup) (hmem : (d, hd) ∈ A) (hlt : d < hs.length) :
    (A.foldl (fun h p => h.set p.1 p.2) hs).getD d 0 = hd := by
  induction A generalizing hs with
  | nil => simp at hmem
  | cons p A ih =>
    obtain ⟨p1, p2⟩ := p
    rw [List.foldl_cons]
    rw [List.map_cons, List.nodup_cons] at hnodup
    rcases List.mem_cons.mp hmem with h | h
    · rw [Prod.mk.injEq] at h
      obtain ⟨h1, h2⟩ := h
      subst h1
      subst h2
      rw [foldl_set_getD_not_mem]
      · rw [List.getD_eq_getElem?_getD, List.getElem?_set_self hlt]
        rfl
      · intro q hq hq1
        exact hnodup.1 (List.mem_map.mpr ⟨q, hq, hq1⟩)
    · apply ih
      · exact hnodup.2
      · exact h
      · rw [List.length_set]
        exact hlt

theorem backtrack_eq_btArcs (n : ℕ) (pI pC : ℕ → ℕ → ℕ) (hT : TOk pI pC) :
    ∀ fuel i j cpl heads,
      2 * (max i j - min i j) + cond cpl 1 0 + 1 ≤ fuel →
      max i j < n → max i j < heads.length →
      backtrack n pI pC fuel i j cpl heads =
        some ((btArcs pI pC fuel i j cpl).foldl (fun h p => h.set p.1 p.2) heads) := by
  intro fuel
  induction fuel with
  | zero =>
    intro i j cpl heads hb hn hh
    omega
  | succ fuel ih =>
    intro i j cpl heads hb hn hh
    by_cases hij : i = j
    · subst hij
      rw [backtrack, btArcs, if_pos rfl, if_pos rfl]
      rfl
    · rw [backtrack, btArcs, if_neg hij, if_neg hij,
        if_neg (show ¬ ¬ (i < n ∧ j < n) by omega)]
      by_cases hc : cpl = true
      · subst hc
        simp only [cond_true] at hb
        rw [if_pos rfl, if_pos rfl]
        have hrb : (i < j → i < pC i j ∧ pC i j ≤ j) ∧
            (j < i → j ≤ pC i j ∧ pC i j < i) := by
          constructor
          · intro h
            exact (hT i j h).2.2.1
          · intro h
            exact (hT j i h).2.2.2
        have hrin : min i j ≤ pC i j ∧ pC i j ≤ max i j := by
          rcases Nat.lt_or_ge i j with h | h
          · have := hrb.1 h
            omega
          · have := hrb.2 (by omega)
            omega
        have h1 := ih i (pC i j) false heads (by simp only [cond_false]; omega)
          (by omega) (by omega)
        have h2 := ih (pC i j) j true
          ((btArcs pI pC fuel i (pC i j) false).foldl (fun h p => h.set p.1 p.2) heads)
          (by simp only [cond_true]; omega) (by omega)
          (by rw [foldl_set_length]; omega)
        rw [h1, List.foldl_append]
        exact h2
      · have hcf : cpl = false := by
          cases cpl
          · rfl
          · exact absurd rfl hc
        subst hcf
        simp only [cond_false] at hb
        rw [if_neg (show ¬ (false : Bool) = true by simp),
          if_neg (show ¬ (false : Bool) = true by simp)]
        have hrb : (i < j → i ≤ pI i j ∧ pI i j < j) ∧
            (j < i → j ≤ pI i j ∧ pI i j < i) := by
          constructor
          · intro h
            exact (hT i j h).1
          · intro h
            exact (hT j i h).2.1
        have hrin : min i j ≤ pI i j ∧ pI i j < max i j := by
          rcases Nat.lt_or_ge i j with h | h
          · have := hrb.1 h
            omega
          · have := hrb.2 (by omega)
            omega
        rw [if_pos (show j < heads.length by omega)]
        have h1 := ih (min i j) (pI i j) true (heads.set j i)
          (by simp only [cond_true]; omega) (by omega)
          (by rw [List.length_set]; omega)
        have h2 := ih (max i j) (pI i j + 1) true
          ((btArcs pI pC fuel (min i j) (pI i j) true).foldl (fun h p => h.set p.1 p.2)
            (heads.set j i))
          (by simp only [cond_true]; omega) (by omega)
          (by rw [foldl_set_length, List.length_set]; omega)
        rw [h1, List.foldl_cons, List.foldl_append]
        exact h2

/-- The decode result in closed form: the arc assignments applied to the
all-ones array, right-padded with the sentinel. -/
theorem eisner_eq (n : ℕ) (S : ℕ → ℕ → ℚ) (mask : List Bool)
    (hLn : mask.count true < n) :
    eisner n S mask =
      some (((btArcs (pIlook (mask.count true) S) (pClook (mask.count true) S)
          (2 * n + 1) 0 (mask.count true) true).foldl
            (fun h p => h.set p.1 p.2)
            (List.replicate (mask.count true + 1) 1)) ++
        List.replicate (n - (mask.count true + 1)) 1) := by
  rw [eisner]
  have hbt := backtrack_eq_btArcs n (pIlook (mask.count true) S)
    (pClook (mask.count true) S) (tablesOk (mask.count true) S) (2 * n + 1) 0
    (mask.count true) true (List.replicate (mask.count true + 1) 1)
    (by simp only [cond_true]; omega) (by omega)
    (by rw [List.length_replicate]; omega)
  rw [hbt]


/-- C8: for a sentence of true length `L = mask.count true` (at least one real
token), `eisner` returns a head array of the common padded length `n`: slot 0
keeps the root-placeholder value `1`, every slot of the meaningful prefix
`1..L` receives a head inside `[0, L]`, and every slot beyond the meaningful
prefix carries the padding sentinel `1`.  Modelled `nn.pad_sequence` fixes
the sentinel and padded length as the spec states. -/
theorem claim8_output_shape (n : ℕ) (S : ℕ → ℕ → ℚ) (mask : List Bool) (h : List ℕ)
    (hL1 : 1 ≤ mask.count true) (he : eisner n S mask = some h) :
    h.length = n ∧ h.getD 0 0 = 1 ∧
    (∀ t, mask.count true + 1 ≤ t → t < n → h.getD t 0 = 1) ∧
    (∀ t, 1 ≤ t → t ≤ mask.count true → h.getD t 0 ≤ mask.count true) := by
  have hn : mask.count true < n := by
    by_contra hn
    simp only [eisner] at he
    rw [backtrack] at he
    rw [if_neg (show ¬ (0 : ℕ) = mask.count true by omega)] at he
    rw [if_pos (show ¬ ((0 : ℕ) < n ∧ mask.count true < n) by omega)] at he
    exact Option.noConfusion he
  rw [eisner_eq n S mask hn, Option.some.injEq] at he
  have hspec := btArcs_spec (pIlook (mask.count true) S) (pClook (mask.count true) S)
    (tablesOk (mask.count true) S) (2 * n + 1) 0 (mask.count true) true
    (by simp only [cond_true]; omega)
  rw [spanDeps_le 0 (mask.count true) (Nat.zero_le _), Nat.sub_zero] at hspec
  have hflen : ((btArcs (pIlook (mask.count true) S) (pClook (mask.count true) S)
      (2 * n + 1) 0 (mask.count true) true).foldl (fun h p => h.set p.1 p.2)
      (List.replicate (mask.count true + 1) 1)).length = mask.count true + 1 := by
    rw [foldl_set_length, List.length_replicate]
  refine ⟨?_, ?_, ?_, ?_⟩
  · rw [← he, List.length_append, hflen, List.length_replicate]
    omega
  · rw [← he, List.getD_append _ _ _ _ (by omega)]
    rw [foldl_set_getD_not_mem]
    · simp [List.getD_eq_getElem?_getD, List.getElem?_replicate]
    · intro p hp hp0
      have hmem : p.1 ∈ List.range' 1 (mask.count true) :=
        hspec.1.mem_iff.mp (List.mem_map_of_mem Prod.fst hp)
      rw [List.mem_range'_1] at hmem
      omega
  · intro t ht htn
    rw [← he, List.getD_append_right _ _ _ _ (by omega), hflen]
    simp only [List.getD_eq_getElem?_getD, List.getElem?_replicate]
    rw [if_pos (by omega)]
    rfl
  · intro t ht1 htL
    rw [← he, List.getD_append _ _ _ _ (by omega)]
    have hmem : t ∈ (btArcs (pIlook (mask.count true) S) (pClook (mask.count true) S)
        (2 * n + 1) 0 (mask.count true) true).map Prod.fst := by
      apply hspec.1.mem_iff.mpr
      rw [List.mem_range'_1]
      omega
    obtain ⟨p, hpA, hp1⟩ := List.mem_map.mp hmem
    obtain ⟨p1, p2⟩ := p
    have hp1t : p1 = t := hp1
    subst hp1t
    have hnd : ((btArcs (pIlook (mask.count true) S) (pClook (mask.count true) S)
        (2 * n + 1) 0 (mask.count true) true).map Prod.fst).Nodup := by
      rw [hspec.1.nodup_iff]
      exact (List.pairwise_lt_range' 1 (mask.count true)).imp (fun hlt => Nat.ne_of_lt hlt)
    rw [foldl_set_getD_mem _ _ p1 p2 hnd hpA (by rw [List.length_replicate]; omega)]
    have hb := hspec.2 (p1, p2) hpA
    omega


theorem claim8_output_shape_witness :
    ([1, 0] : List ℕ).length = 2 ∧ ([1, 0] : List ℕ).getD 0 0 = 1 ∧
    (∀ t, ([false, true] : List Bool).count true + 1 ≤ t → t < 2 →
      ([1, 0] : List ℕ).getD t 0 = 1) ∧
    (∀ t, 1 ≤ t → t ≤ ([false, true] : List Bool).count true →
      ([1, 0] : List ℕ).getD t 0 ≤ ([false, true] : List Bool).count true) :=
  claim8_output_shape 2 scA [false, true] [1, 0] (by decide)
    (by with_unfolding_all rfl)


/-! ### Score congruence: only entries with both indices in `[0, L]` matter -/

theorem dp_congr (L : ℕ) (S S2 : ℕ → ℕ → ℚ)
    (hS : ∀ a b, a ≤ L → b ≤ L → S a b = S2 a b) :
    ∀ w k i j, j - i ≤ w → j ≤ L → dp L S k i j = dp L S2 k i j := by
  intro w
  induction w with
  | zero =>
    intro k i j hw hj
    rw [dp_base L S k i j (by omega), dp_base L S2 k i j (by omega)]
  | succ w ih =>
    intro k i j hw hj
    by_cases hij : j ≤ i
    · rw [dp_base L S k i j hij, dp_base L S2 k i j hij]
    · have hij2 : i < j := by omega
      have hiL : i ≤ L := by omega
      have hil : dp L S SpanKind.il i j = dp L S2 SpanKind.il i j := by
        rw [dp_il_eq L S i j hij2, dp_il_eq L S2 i j hij2]
        congr 1
        apply List.map_congr_left
        intro r hr
        rw [List.mem_range'_1] at hr
        rw [ih SpanKind.cr i r (by omega) (by omega),
          ih SpanKind.cl (r + 1) j (by omega) hj, hS i j hiL hj]
      have hir : dp L S SpanKind.ir i j = dp L S2 SpanKind.ir i j := by
        rw [dp_ir_eq L S i j hij2, dp_ir_eq L S2 i j hij2]
        congr 1
        apply List.map_congr_left
        intro r hr
        rw [List.mem_range'_1] at hr
        rw [ih SpanKind.cr i r (by omega) (by omega),
          ih SpanKind.cl (r + 1) j (by omega) hj, hS j i hj hiL]
      cases k with
      | il => exact hil
      | ir => exact hir
      | cl =>
        rw [dp_cl_eq L S i j hij2, dp_cl_eq L S2 i j hij2]
        congr 1
        apply List.map_congr_left
        intro r hr
        rw [List.mem_range'_1] at hr
        by_cases hri : r = i
        · subst hri
          rw [ih SpanKind.cl r r (by omega) (by omega), hil]
        · rw [ih SpanKind.cl i r (by omega) (by omega),
            ih SpanKind.il r j (by omega) hj]
      | cr =>
        have hmap : (List.range' (i + 1) (j - i)).map (fun r =>
            (r, (dp L S SpanKind.ir i r).2 + (dp L S SpanKind.cr r j).2)) =
            (List.range' (i + 1) (j - i)).map (fun r =>
            (r, (dp L S2 SpanKind.ir i r).2 + (dp L S2 SpanKind.cr r j).2)) := by
          apply List.map_congr_left
          intro r hr
          rw [List.mem_range'_1] at hr
          by_cases hrj : r = j
          · subst hrj
            rw [hir, ih SpanKind.cr r r (by omega) hj]
          · rw [ih SpanKind.ir i r (by omega) (by omega),
              ih SpanKind.cr r j (by omega) hj]
        rw [dp_cr_eq L S i j hij2, dp_cr_eq L S2 i j hij2, hmap]

theorem pIlook_congr (L : ℕ) (S S2 : ℕ → ℕ → ℚ)
    (hS : ∀ a b, a ≤ L → b ≤ L → S a b = S2 a b) (a b : ℕ)
    (ha : a ≤ L) (hb : b ≤ L) : pIlook L S a b = pIlook L S2 a b := by
  rw [pIlook, pIlook]
  by_cases hab : a < b
  · rw [if_pos hab, if_pos hab, dp_congr L S S2 hS L SpanKind.ir a b (by omega) hb]
  · rw [if_neg hab, if_neg hab, dp_congr L S S2 hS L SpanKind.il b a (by omega) ha]

theorem pClook_congr (L : ℕ) (S S2 : ℕ → ℕ → ℚ)
    (hS : ∀ a b, a ≤ L → b ≤ L → S a b = S2 a b) (a b : ℕ)
    (ha : a ≤ L) (hb : b ≤ L) : pClook L S a b = pClook L S2 a b := by
  rw [pClook, pClook]
  by_cases hab : a < b
  · rw [if_pos hab, if_pos hab, dp_congr L S S2 hS L SpanKind.cr a b (by omega) hb]
  · rw [if_neg hab, if_neg hab, dp_congr L S S2 hS L SpanKind.cl b a (by omega) ha]

theorem backtrack_congr (n L : ℕ) (S S2 : ℕ → ℕ → ℚ)
    (hS : ∀ a b, a ≤ L → b ≤ L → S a b = S2 a b) :
    ∀ fuel i j cpl heads, max i j ≤ L →
      backtrack n (pIlook L S) (pClook L S) fuel i j cpl heads =
        backtrack n (pIlook L S2) (pClook L S2) fuel i j cpl heads := by
  intro fuel
  induction fuel with
  | zero =>
    intro i j cpl heads hmax
    rfl
  | succ fuel ih =>
    intro i j cpl heads hmax
    by_cases hij : i = j
    · subst hij
      rw [backtrack, backtrack, if_pos rfl, if_pos rfl]
    · have hiL : i ≤ L := le_trans (le_max_left i j) hmax
      have hjL : j ≤ L := le_trans (le_max_right i j) hmax
      rw [backtrack, backtrack, if_neg hij, if_neg hij]
      by_cases hbound : ¬ (i < n ∧ j < n)
      · rw [if_pos hbound, if_pos hbound]
      · rw [if_neg hbound, if_neg hbound]
        have hT := tablesOk L S
        by_cases hc : cpl = true
        · subst hc
          rw [if_pos rfl, if_pos rfl]
          have hpC : pClook L S i j = pClook L S2 i j :=
            pClook_congr L S S2 hS i j hiL hjL
          have hrin : min i j ≤ pClook L S i j ∧ pClook L S i j ≤ max i j := by
            rcases Nat.lt_or_ge i j with h | h
            · have := (hT i j h).2.2.1
              omega
            · have := (hT j i (by omega)).2.2.2
              omega
          rw [← hpC, ih i (pClook L S i j) false heads (by omega)]
          cases backtrack n (pIlook L S2) (pClook L S2) fuel i (pClook L S i j)
              false heads with
          | none => rfl
          | some h1 => exact ih (pClook L S i j) j true h1 (by omega)
        · have hcf : cpl = false := by
            cases cpl
            · rfl
            · exact absurd rfl hc
          subst hcf
          rw [if_neg (show ¬ (false : Bool) = true by simp),
            if_neg (show ¬ (false : Bool) = true by simp)]
          by_cases hjh : j < heads.length
          · rw [if_pos hjh, if_pos hjh]
            have hpI : pIlook L S i j = pIlook L S2 i j :=
              pIlook_congr L S S2 hS i j hiL hjL
            have hrin : min i j ≤ pIlook L S i j ∧ pIlook L S i j < max i j := by
              rcases Nat.lt_or_ge i j with h | h
              · have := (hT i j h).1
                omega
              · have := (hT j i (by omega)).2.1
                omega
            rw [← hpI, ih (min i j) (pIlook L S i j) true (heads.set j i) (by omega)]
            cases backtrack n (pIlook L S2) (pClook L S2) fuel (min i j)
                (pIlook L S i j) true (heads.set j i) with
            | none => rfl
            | some h2 => exact ih (max i j) (pIlook L S i j + 1) true h2 (by omega)
          · rw [if_neg hjh, if_neg hjh]

/-- C4 counterexample: the two score functions agree on every entry whose row
and column are both real token positions (`{1, 2}` for the mask
`[false, true, true]`), yet the decoded heads of the real tokens differ;
they disagree only on entries involving index 0, showing that the root
row/column — not a real (unmasked) token position — also influences
real-token outputs. -/
theorem claim4_cex :
    (∀ a b, 1 ≤ a → a ≤ 2 → 1 ≤ b → b ≤ 2 → scA a b = scB a b) ∧
    eisner 3 scA [false, true, true] = some [1, 0, 1] ∧
    eisner 3 scB [false, true, true] = some [1, 2, 0] ∧
    eisner 3 scA [false, true, true] ≠ eisner 3 scB [false, true, true] := by
  have h1 : eisner 3 scA [false, true, true] = some [1, 0, 1] := by
    with_unfolding_all rfl
  have h2 : eisner 3 scB [false, true, true] = some [1, 2, 0] := by
    with_unfolding_all rfl
  refine ⟨?_, h1, h2, ?_⟩
  · intro a b ha1 ha2 hb1 hb2
    simp only [scA, scB]
    rw [if_neg (by omega), if_neg (by omega)]
  · rw [h1, h2]
    simp

/-- C4 amended: if two score functions agree on every entry whose row and
column indices are both at most `L = mask.count true` — the real token
positions together with the root position 0 — then `eisner` returns the
same output; scores at padding positions (index `> L`) never matter. -/
theorem claim4_amended (n : ℕ) (S S2 : ℕ → ℕ → ℚ) (mask : List Bool)
    (hS : ∀ a b, a ≤ mask.count true → b ≤ mask.count true → S a b = S2 a b) :
    eisner n S mask = eisner n S2 mask := by
  simp only [eisner]
  rw [backtrack_congr n (mask.count true) S S2 hS (2 * n + 1) 0 (mask.count true)
    true (List.replicate (mask.count true + 1) 1) (by omega)]

theorem claim4_amended_witness :
    eisner 3 (fun _ _ => (0 : ℚ)) [false, true, false] =
      eisner 3 (fun a b => if a ≤ 1 ∧ b ≤ 1 then (0 : ℚ) else 5) [false, true, false] :=
  claim4_amended 3 (fun _ _ => (0 : ℚ))
    (fun a b => if a ≤ 1 ∧ b ≤ 1 then (0 : ℚ) else 5) [false, true, false]
    (fun a b ha hb => by
      show (0 : ℚ) = if a ≤ 1 ∧ b ≤ 1 then (0 : ℚ) else 5
      rw [if_pos ⟨ha, hb⟩])


/-! ### Towards C1: the decoded arcs induce a projective tree -/

theorem getD_set_ne (v : List Bool) (a b : ℕ) (x d : Bool) (h : a ≠ b) :
    (v.set a x).getD b d = v.getD b d := by
  rw [List.getD_eq_getElem?_getD, List.getD_eq_getElem?_getD,
    List.getElem?_set_ne h]

theorem getD_set_self (v : List Bool) (a : ℕ) (x d : Bool) (h : a < v.length) :
    (v.set a x).getD a d = x := by
  rw [List.getD_eq_getElem?_getD, List.getElem?_set_self h]
  rfl

theorem sorted_lt_eq_of_mem (l1 l2 : List ℕ) (h1 : l1.Pairwise (· < ·))
    (h2 : l2.Pairwise (· < ·)) (hm : ∀ c, c ∈ l1 ↔ c ∈ l2) : l1 = l2 := by
  have hn1 : l1.Nodup := h1.imp (fun h => Nat.ne_of_lt h)
  have hn2 : l2.Nodup := h2.imp (fun h => Nat.ne_of_lt h)
  exact List.eq_of_perm_of_sorted ((List.perm_ext_iff_of_nodup hn1 hn2).mpr hm)
    (h1.imp (fun h => Nat.le_of_lt h)) (h2.imp (fun h => Nat.le_of_lt h))

theorem inorderMany_append (f : List Bool → ℕ → List ℕ × List Bool) :
    ∀ l1 l2 v, inorderMany f v (l1 ++ l2) =
      ((inorderMany f v l1).1 ++ (inorderMany f (inorderMany f v l1).2 l2).1,
        (inorderMany f (inorderMany f v l1).2 l2).2) := by
  intro l1
  induction l1 with
  | nil =>
    intro l2 v
    simp [inorderMany]
  | cons c cs ih =>
    intro l2 v
    rw [List.cons_append, inorderMany, inorderMany, ih]
    simp [List.append_assoc, inorderMany]

/-- Every dependent of a backtracked span receives (through a head function
that agrees with the arcs) a head inside the span interval. -/
theorem span_par_bound (par : ℕ → ℕ) (pI pC : ℕ → ℕ → ℕ) (hT : TOk pI pC)
    (fuel i j : ℕ) (cpl : Bool)
    (hb : 2 * (max i j - min i j) + cond cpl 1 0 ≤ fuel)
    (hagree : ∀ p ∈ btArcs pI pC fuel i j cpl, par p.1 = p.2) :
    ∀ c ∈ spanDeps i j, min i j ≤ par c ∧ par c ≤ max i j := by
  intro c hc
  obtain ⟨hperm, hbnd⟩ := btArcs_spec pI pC hT fuel i j cpl hb
  obtain ⟨p, hp, hp1⟩ := List.mem_map.mp (hperm.mem_iff.mpr hc)
  have h2 := hbnd p hp
  rw [← hp1, hagree p hp]
  omega


theorem inorderMany_single (f : List Bool → ℕ → List ℕ × List Bool)
    (v : List Bool) (c : ℕ) : inorderMany f v [c] = f v c := by
  rw [inorderMany, inorderMany]
  simp

/-- Core traversal lemma: for a complete backtracked span `(i, j)` with head
`i`, traversing (in ascending id order) the in-span children of the head
visits exactly the span dependents in ascending order, and marks exactly
them. -/
theorem travC (L : ℕ) (par : ℕ → ℕ) (pI pC : ℕ → ℕ → ℕ) (hT : TOk pI pC)
    (g : List PNode)
    (hg : ∀ x, x ≤ L → g.getD x default =
      ⟨(List.range' 1 L).filter (fun c => par c == x && ! decide (x < c)),
       (List.range' 1 L).filter (fun c => par c == x && decide (x < c))⟩) :
    ∀ fuel i j fl v,
      2 * (max i j - min i j) + 1 ≤ fuel →
      max i j - min i j ≤ fl →
      max i j ≤ L →
      (i ≤ j ∨ 1 ≤ j) →
      (∀ p ∈ btArcs pI pC fuel i j true, par p.1 = p.2) →
      (∀ c, 1 ≤ c → c ≤ L → c ∉ spanDeps i j → par c ∉ spanDeps i j) →
      v.length = L + 1 →
      (∀ c ∈ spanDeps i j, v.getD c true = false) →
      (inorderMany (inorderF g fl) v
          ((spanDeps i j).filter (fun c => par c == i))).1 = spanDeps i j ∧
        (inorderMany (inorderF g fl) v
          ((spanDeps i j).filter (fun c => par c == i))).2.length = L + 1 ∧
        ∀ t, (inorderMany (inorderF g fl) v
            ((spanDeps i j).filter (fun c => par c == i))).2.getD t true =
          (if t ∈ spanDeps i j then true else v.getD t true) := by
  intro fuel
  induction fuel using Nat.strong_induction_on with
  | _ fuel ih =>
  intro i j fl v hb hfl hjL hdir hagree houts hvlen hv
  by_cases hij : i = j
  · subst hij
    have hsd : spanDeps i i = [] := by
      rw [spanDeps_le i i (le_refl i), Nat.sub_self]
      rfl
    rw [hsd]
    refine ⟨rfl, hvlen, ?_⟩
    intro t
    simp [inorderMany]
  · rcases Nat.lt_or_ge i j with hfw | hge
    · -- forward span: i < j, head i, dependents (i, j]
      obtain ⟨f, hfdef⟩ : ∃ f, fuel = f + 1 := ⟨fuel - 1, by omega⟩
      obtain ⟨f2, hf2def⟩ : ∃ f2, f = f2 + 1 := ⟨f - 1, by omega⟩
      obtain ⟨r, hrdef⟩ : ∃ r, pC i j = r := ⟨_, rfl⟩
      have hrb : i < r ∧ r ≤ j := hrdef ▸ (hT i j hfw).2.2.1
      obtain ⟨s, hsdef⟩ : ∃ s, pI i r = s := ⟨_, rfl⟩
      have hsb : i ≤ s ∧ s < r := hsdef ▸ (hT i r hrb.1).1
      have hA : btArcs pI pC fuel i j true =
          ((r, i) :: (btArcs pI pC f2 i s true ++ btArcs pI pC f2 r (s + 1) true)) ++
            btArcs pI pC f r j true := by
        rw [hfdef, btArcs, if_neg hij, if_pos rfl, hrdef]
        congr 1
        rw [hf2def, btArcs, if_neg (show ¬ i = r by omega),
          if_neg (show ¬ (false : Bool) = true by simp), hsdef,
          Nat.min_eq_left (show i ≤ r by omega), Nat.max_eq_right (show i ≤ r by omega)]
      have hmem1 : ∀ p ∈ btArcs pI pC f2 i s true, p ∈ btArcs pI pC fuel i j true := by
        intro p hp
        rw [hA]
        exact List.mem_append_left _ (List.mem_cons_of_mem _ (List.mem_append_left _ hp))
      have hmem2 : ∀ p ∈ btArcs pI pC f2 r (s + 1) true,
          p ∈ btArcs pI pC fuel i j true := by
        intro p hp
        rw [hA]
        exact List.mem_append_left _ (List.mem_cons_of_mem _ (List.mem_append_right _ hp))
      have hmem3 : ∀ p ∈ btArcs pI pC f r j true, p ∈ btArcs pI pC fuel i j true := by
        intro p hp
        rw [hA]
        exact List.mem_append_right _ hp
      have hag1 : par r = i := hagree (r, i)
        (by rw [hA]; exact List.mem_append_left _ (List.mem_cons_self _ _))
      have hpar1 : ∀ c, i + 1 ≤ c → c ≤ s → i ≤ par c ∧ par c ≤ s := by
        intro c h1 h2
        have := span_par_bound par pI pC hT f2 i s true
          (by simp only [cond_true]; omega) (fun p hp => hagree p (hmem1 p hp)) c
          (by rw [spanDeps_le i s (by omega), List.mem_range'_1]; omega)
        omega
      have hsd2 : spanDeps r (s + 1) = List.range' (s + 1) (r - 1 - s) := by
        rcases Nat.eq_or_lt_of_le (show s + 1 ≤ r by omega) with h | h
        · rw [show r - 1 - s = 0 by omega, ← h,
            spanDeps_le (s + 1) (s + 1) (le_refl (s + 1)), Nat.sub_self]
          rfl
        · rw [spanDeps_gt r (s + 1) (by omega)]
          congr 1
          omega
      have hpar2 : ∀ c, s + 1 ≤ c → c + 1 ≤ r → s + 1 ≤ par c ∧ par c ≤ r := by
        intro c h1 h2
        have := span_par_bound par pI pC hT f2 r (s + 1) true
          (by simp only [cond_true]; omega) (fun p hp => hagree p (hmem2 p hp)) c
          (by rw [hsd2, List.mem_range'_1]; omega)
        omega
      have hpar3 : ∀ c, r + 1 ≤ c → c ≤ j → r ≤ par c ∧ par c ≤ j := by
        intro c h1 h2
        have := span_par_bound par pI pC hT f r j true
          (by simp only [cond_true]; omega) (fun p hp => hagree p (hmem3 p hp)) c
          (by rw [spanDeps_le r j (by omega), List.mem_range'_1]; omega)
        omega
      have houtb : ∀ c, 1 ≤ c → c ≤ L → ¬ (i + 1 ≤ c ∧ c ≤ j) →
          ¬ (i + 1 ≤ par c ∧ par c ≤ j) := by
        intro c h1 h2 h3
        have := houts c h1 h2
          (by rw [spanDeps_le i j (by omega), List.mem_range'_1]; omega)
        rw [spanDeps_le i j (by omega), List.mem_range'_1] at this
        omega
      have hsplit : spanDeps i j =
          List.range' (i + 1) (s - i) ++ (List.range' (s + 1) (r - 1 - s) ++
            (r :: List.range' (r + 1) (j - r))) := by
        rw [spanDeps_le i j (by omega)]
        rw [show (r : ℕ) :: List.range' (r + 1) (j - r) = List.range' r (j - r + 1) from
          (List.range'_succ r (j - r) 1).symm]
        rw [range'_glue (s + 1) (r - 1 - s) (j - r + 1) r (by omega)]
        rw [show r - 1 - s + (j - r + 1) = j - s by omega]
        rw [range'_glue (i + 1) (s - i) (j - s) (s + 1) (by omega)]
        congr 1
        omega
      have hq2 : ∀ c ∈ List.range' (s + 1) (r - 1 - s),
          ¬ ((fun c => par c == i) c = true) := by
        intro c hc
        rw [List.mem_range'_1] at hc
        have := hpar2 c (by omega) (by omega)
        simp only [beq_iff_eq]
        omega
      have hq4 : ∀ c ∈ List.range' (r + 1) (j - r),
          ¬ ((fun c => par c == i) c = true) := by
        intro c hc
        rw [List.mem_range'_1] at hc
        have := hpar3 c (by omega) (by omega)
        simp only [beq_iff_eq]
        omega
      have hfilter : (spanDeps i j).filter (fun c => par c == i) =
          ((List.range' (i + 1) (s - i)).filter (fun c => par c == i)) ++ [r] := by
        rw [hsplit, List.filter_append, List.filter_append, List.filter_cons,
          List.filter_eq_nil_iff.mpr hq2, List.filter_eq_nil_iff.mpr hq4]
        simp [hag1]
      have houts1 : ∀ c, 1 ≤ c → c ≤ L → c ∉ spanDeps i s → par c ∉ spanDeps i s := by
        intro c h1 h2 h3
        rw [spanDeps_le i s (by omega), List.mem_range'_1] at h3 ⊢
        intro hmem
        by_cases hin : i + 1 ≤ c ∧ c ≤ j
        · rcases Nat.lt_or_ge c (s + 1) with hc1 | hc1
          · exact h3 (by omega)
          · rcases Nat.lt_or_ge c r with hc2 | hc2
            · have := hpar2 c (by omega) (by omega)
              omega
            · rcases Nat.eq_or_lt_of_le hc2 with hc3 | hc3
              · have hpc : par c = i := by
                  rw [show c = r from hc3.symm]
                  exact hag1
                omega
              · have := hpar3 c (by omega) (by omega)
                omega
        · have := houtb c h1 h2 hin
          omega
      have hv1 : ∀ c ∈ spanDeps i s, v.getD c true = false := by
        intro c hc
        apply hv
        rw [spanDeps_le i s (by omega), List.mem_range'_1] at hc
        rw [spanDeps_le i j (by omega), List.mem_range'_1]
        omega
      have hIH1 := ih f2 (by omega) i s fl v (by omega) (by omega) (by omega)
        (Or.inl (by omega)) (fun p hp => hagree p (hmem1 p hp)) houts1 hvlen hv1
      obtain ⟨h1a, h1b, h1c⟩ := hIH1
      obtain ⟨fl0, hfl0⟩ : ∃ fl0, fl = fl0 + 1 := ⟨fl - 1, by omega⟩
      rw [hfl0] at h1a h1b h1c
      rw [spanDeps_le i s (by omega)] at h1a h1b h1c
      have hvr : ((inorderMany (inorderF g (fl0 + 1)) v ((List.range' (i + 1) (s - i)).filter (fun c => par c == i))).2).getD r true = false := by
        rw [h1c r, if_neg (by rw [List.mem_range'_1]; omega)]
        exact hv r (by rw [spanDeps_le i j (by omega), List.mem_range'_1]; omega)
      have hkL : (g.getD r default).lefts = (List.range' (s + 1) (r - 1 - s)).filter (fun c => par c == r) := by
        rw [hg r (by omega)]
        apply sorted_lt_eq_of_mem
        · exact (List.pairwise_lt_range' 1 L).filter _
        · exact (List.pairwise_lt_range' (s + 1) (r - 1 - s)).filter _
        · intro c
          simp only [List.mem_filter, List.mem_range'_1, Bool.and_eq_true, beq_iff_eq,
            Bool.not_eq_true', decide_eq_false_iff_not]
          constructor
          · rintro ⟨⟨hc1, hc2⟩, hpc, hcr⟩
            by_cases hin : i + 1 ≤ c ∧ c ≤ j
            · rcases Nat.lt_or_ge c (s + 1) with h1 | h1
              · have := hpar1 c (by omega) (by omega)
                omega
              · rcases Nat.lt_or_ge c r with h2 | h2
                · exact ⟨⟨by omega, by omega⟩, hpc⟩
                · have hcr2 : c = r := by omega
                  have hpc2 : par c = i := by
                    rw [hcr2]
                    exact hag1
                  omega
            · have := houtb c (by omega) (by omega) hin
              omega
          · rintro ⟨⟨hc1, hc2⟩, hpc⟩
            exact ⟨⟨by omega, by omega⟩, hpc, by omega⟩
      have hkR : (g.getD r default).rights = (List.range' (r + 1) (j - r)).filter (fun c => par c == r) := by
        rw [hg r (by omega)]
        apply sorted_lt_eq_of_mem
        · exact (List.pairwise_lt_range' 1 L).filter _
        · exact (List.pairwise_lt_range' (r + 1) (j - r)).filter _
        · intro c
          simp only [List.mem_filter, List.mem_range'_1, Bool.and_eq_true, beq_iff_eq,
            decide_eq_true_eq]
          constructor
          · rintro ⟨⟨hc1, hc2⟩, hpc, hcr⟩
            by_cases hin : i + 1 ≤ c ∧ c ≤ j
            · exact ⟨⟨by omega, by omega⟩, hpc⟩
            · have := houtb c (by omega) (by omega) hin
              omega
          · rintro ⟨⟨hc1, hc2⟩, hpc⟩
            exact ⟨⟨by omega, by omega⟩, hpc, by omega⟩
      have hFr : inorderF g (fl0 + 1) ((inorderMany (inorderF g (fl0 + 1)) v ((List.range' (i + 1) (s - i)).filter (fun c => par c == i))).2) r =
          ((inorderMany (inorderF g fl0) ((inorderMany (inorderF g (fl0 + 1)) v ((List.range' (i + 1) (s - i)).filter (fun c => par c == i))).2.set r true) ((List.range' (s + 1) (r - 1 - s)).filter (fun c => par c == r))).1 ++ r :: (inorderMany (inorderF g fl0) (inorderMany (inorderF g fl0) ((inorderMany (inorderF g (fl0 + 1)) v ((List.range' (i + 1) (s - i)).filter (fun c => par c == i))).2.set r true) ((List.range' (s + 1) (r - 1 - s)).filter (fun c => par c == r))).2 ((List.range' (r + 1) (j - r)).filter (fun c => par c == r))).1, (inorderMany (inorderF g fl0) (inorderMany (inorderF g fl0) ((inorderMany (inorderF g (fl0 + 1)) v ((List.range' (i + 1) (s - i)).filter (fun c => par c == i))).2.set r true) ((List.range' (s + 1) (r - 1 - s)).filter (fun c => par c == r))).2 ((List.range' (r + 1) (j - r)).filter (fun c => par c == r))).2) := by
        rw [inorderF, if_neg (show ¬ ((inorderMany (inorderF g (fl0 + 1)) v ((List.range' (i + 1) (s - i)).filter (fun c => par c == i))).2).getD r true = true by rw [hvr]; simp),
          hkL, hkR]
      have houts2 : ∀ c, 1 ≤ c → c ≤ L → c ∉ spanDeps r (s + 1) →
          par c ∉ spanDeps r (s + 1) := by
        intro c h1 h2 h3
        rw [hsd2, List.mem_range'_1] at h3 ⊢
        intro hmem
        by_cases hin : i + 1 ≤ c ∧ c ≤ j
        · rcases Nat.lt_or_ge c (s + 1) with hc1 | hc1
          · have := hpar1 c (by omega) (by omega)
            omega
          · rcases Nat.lt_or_ge c r with hc2 | hc2
            · exact h3 (by omega)
            · rcases Nat.eq_or_lt_of_le hc2 with hc3 | hc3
              · have hpc : par c = i := by
                  rw [show c = r from hc3.symm]
                  exact hag1
                omega
              · have := hpar3 c (by omega) (by omega)
                omega
        · have := houtb c h1 h2 hin
          omega
      have hv2 : ∀ c ∈ spanDeps r (s + 1), (((inorderMany (inorderF g (fl0 + 1)) v ((List.range' (i + 1) (s - i)).filter (fun c => par c == i))).2).set r true).getD c true = false := by
        intro c hc
        rw [hsd2, List.mem_range'_1] at hc
        rw [getD_set_ne _ _ _ _ _ (show r ≠ c by omega)]
        rw [h1c c, if_neg (by rw [List.mem_range'_1]; omega)]
        exact hv c (by rw [spanDeps_le i j (by omega), List.mem_range'_1]; omega)
      have hIH2 := ih f2 (by omega) r (s + 1) fl0 (((inorderMany (inorderF g (fl0 + 1)) v ((List.range' (i + 1) (s - i)).filter (fun c => par c == i))).2).set r true) (by omega)
        (by omega) (by omega) (Or.inr (by omega))
        (fun p hp => hagree p (hmem2 p hp)) houts2
        (by rw [List.length_set]; exact h1b) hv2
      obtain ⟨h2a, h2b, h2c⟩ := hIH2
      rw [hsd2] at h2a h2b h2c
      have hsd3 : spanDeps r j = List.range' (r + 1) (j - r) := spanDeps_le r j (by omega)
      have houts3 : ∀ c, 1 ≤ c → c ≤ L → c ∉ spanDeps r j → par c ∉ spanDeps r j := by
        intro c h1 h2 h3
        rw [hsd3, List.mem_range'_1] at h3 ⊢
        intro hmem
        by_cases hin : i + 1 ≤ c ∧ c ≤ j
        · rcases Nat.lt_or_ge c (s + 1) with hc1 | hc1
          · have := hpar1 c (by omega) (by omega)
            omega
          · rcases Nat.lt_or_ge c r with hc2 | hc2
            · have := hpar2 c (by omega) (by omega)
              omega
            · rcases Nat.eq_or_lt_of_le hc2 with hc3 | hc3
              · have hpc : par c = i := by
                  rw [show c = r from hc3.symm]
                  exact hag1
                omega
              · exact h3 (by omega)
        · have := houtb c h1 h2 hin
          omega
      have hv3 : ∀ c ∈ spanDeps r j, (inorderMany (inorderF g fl0) ((inorderMany (inorderF g (fl0 + 1)) v ((List.range' (i + 1) (s - i)).filter (fun c => par c == i))).2.set r true) ((List.range' (s + 1) (r - 1 - s)).filter (fun c => par c == r))).2.getD c true = false := by
        intro c hc
        rw [hsd3, List.mem_range'_1] at hc
        rw [h2c c, if_neg (by rw [List.mem_range'_1]; omega)]
        rw [getD_set_ne _ _ _ _ _ (show r ≠ c by omega)]
        rw [h1c c, if_neg (by rw [List.mem_range'_1]; omega)]
        exact hv c (by rw [spanDeps_le i j (by omega), List.mem_range'_1]; omega)
      have hIH3 := ih f (by omega) r j fl0 ((inorderMany (inorderF g fl0) ((inorderMany (inorderF g (fl0 + 1)) v ((List.range' (i + 1) (s - i)).filter (fun c => par c == i))).2.set r true) ((List.range' (s + 1) (r - 1 - s)).filter (fun c => par c == r))).2) (by omega) (by omega)
        (by omega) (Or.inl (by omega)) (fun p hp => hagree p (hmem3 p hp)) houts3
        h2b hv3
      obtain ⟨h3a, h3b, h3c⟩ := hIH3
      rw [hsd3] at h3a h3b h3c
      rw [hfilter, hfl0, inorderMany_append, inorderMany_single, hFr]
      refine ⟨?_, ?_, ?_⟩
      · rw [h1a, h2a, h3a]
        exact hsplit.symm
      · exact h3b
      · intro t
        rw [h3c t, h2c t]
        rw [spanDeps_le i j (by omega)]
        by_cases ht4 : t ∈ List.range' (r + 1) (j - r)
        · rw [if_pos ht4, if_pos]
          rw [List.mem_range'_1] at ht4 ⊢
          omega
        · rw [if_neg ht4]
          by_cases ht2 : t ∈ List.range' (s + 1) (r - 1 - s)
          · rw [if_pos ht2, if_pos]
            rw [List.mem_range'_1] at ht2 ⊢
            omega
          · rw [if_neg ht2]
            by_cases htr : t = r
            · subst htr
              rw [getD_set_self _ _ _ _ (by rw [h1b]; omega), if_pos]
              rw [List.mem_range'_1]
              omega
            · rw [getD_set_ne _ _ _ _ _ (fun he => htr he.symm)]
              rw [h1c t]
              by_cases ht1 : t ∈ List.range' (i + 1) (s - i)
              · rw [if_pos ht1, if_pos]
                rw [List.mem_range'_1] at ht1 ⊢
                omega
              · rw [if_neg ht1]
                by_cases htj : t ∈ List.range' (i + 1) (j - i)
                · exfalso
                  rw [List.mem_range'_1] at ht1 ht2 ht4 htj
                  omega
                · rw [if_neg htj]
    · -- reversed span: j < i, head i, dependents [j, i-1]
      have hrev : j < i := by omega
      have hj1 : 1 ≤ j := by
        rcases hdir with h | h
        · omega
        · exact h
      obtain ⟨f, hfdef⟩ : ∃ f, fuel = f + 1 := ⟨fuel - 1, by omega⟩
      obtain ⟨f2, hf2def⟩ : ∃ f2, f = f2 + 1 := ⟨f - 1, by omega⟩
      obtain ⟨r, hrdef⟩ : ∃ r, pC i j = r := ⟨_, rfl⟩
      have hrb : j ≤ r ∧ r < i := hrdef ▸ (hT j i hrev).2.2.2
      obtain ⟨s, hsdef⟩ : ∃ s, pI i r = s := ⟨_, rfl⟩
      have hsb : r ≤ s ∧ s < i := hsdef ▸ (hT r i hrb.2).2.1
      have hA : btArcs pI pC fuel i j true =
          ((r, i) :: (btArcs pI pC f2 r s true ++ btArcs pI pC f2 i (s + 1) true)) ++
            btArcs pI pC f r j true := by
        rw [hfdef, btArcs, if_neg hij, if_pos rfl, hrdef]
        congr 1
        rw [hf2def, btArcs, if_neg (show ¬ i = r by omega),
          if_neg (show ¬ (false : Bool) = true by simp), hsdef,
          Nat.min_eq_right (show r ≤ i by omega), Nat.max_eq_left (show r ≤ i by omega)]
      have hmem1 : ∀ p ∈ btArcs pI pC f2 r s true, p ∈ btArcs pI pC fuel i j true := by
        intro p hp
        rw [hA]
        exact List.mem_append_left _ (List.mem_cons_of_mem _ (List.mem_append_left _ hp))
      have hmem2 : ∀ p ∈ btArcs pI pC f2 i (s + 1) true,
          p ∈ btArcs pI pC fuel i j true := by
        intro p hp
        rw [hA]
        exact List.mem_append_left _ (List.mem_cons_of_mem _ (List.mem_append_right _ hp))
      have hmem3 : ∀ p ∈ btArcs pI pC f r j true, p ∈ btArcs pI pC fuel i j true := by
        intro p hp
        rw [hA]
        exact List.mem_append_right _ hp
      have hag1 : par r = i := hagree (r, i)
        (by rw [hA]; exact List.mem_append_left _ (List.mem_cons_self _ _))
      have hsd2 : spanDeps i (s + 1) = List.range' (s + 1) (i - 1 - s) := by
        rcases Nat.eq_or_lt_of_le (show s + 1 ≤ i by omega) with h | h
        · rw [show i - 1 - s = 0 by omega, ← h,
            spanDeps_le (s + 1) (s + 1) (le_refl (s + 1)), Nat.sub_self]
          rfl
        · rw [spanDeps_gt i (s + 1) (by omega)]
          congr 1
          omega
      have hsd4 : spanDeps r j = List.range' j (r - j) := by
        rcases Nat.eq_or_lt_of_le (show j ≤ r by omega) with h | h
        · rw [show r - j = 0 by omega, ← h, spanDeps_le j j (le_refl j), Nat.sub_self]
          rfl
        · rw [spanDeps_gt r j (by omega)]
      have hpar1 : ∀ c, r + 1 ≤ c → c ≤ s → r ≤ par c ∧ par c ≤ s := by
        intro c h1 h2
        have := span_par_bound par pI pC hT f2 r s true
          (by simp only [cond_true]; omega) (fun p hp => hagree p (hmem1 p hp)) c
          (by rw [spanDeps_le r s (by omega), List.mem_range'_1]; omega)
        omega
      have hpar2 : ∀ c, s + 1 ≤ c → c + 1 ≤ i → s + 1 ≤ par c ∧ par c ≤ i := by
        intro c h1 h2
        have := span_par_bound par pI pC hT f2 i (s + 1) true
          (by simp only [cond_true]; omega) (fun p hp => hagree p (hmem2 p hp)) c
          (by rw [hsd2, List.mem_range'_1]; omega)
        omega
      have hpar3 : ∀ c, j ≤ c → c + 1 ≤ r → j ≤ par c ∧ par c ≤ r := by
        intro c h1 h2
        have := span_par_bound par pI pC hT f r j true
          (by simp only [cond_true]; omega) (fun p hp => hagree p (hmem3 p hp)) c
          (by rw [hsd4, List.mem_range'_1]; omega)
        omega
      have houtb : ∀ c, 1 ≤ c → c ≤ L → ¬ (j ≤ c ∧ c + 1 ≤ i) →
          ¬ (j ≤ par c ∧ par c + 1 ≤ i) := by
        intro c h1 h2 h3
        have := houts c h1 h2
          (by rw [spanDeps_gt i j (by omega), List.mem_range'_1]; omega)
        rw [spanDeps_gt i j (by omega), List.mem_range'_1] at this
        omega
      have hsplit : spanDeps i j =
          List.range' j (r - j) ++ (r :: (List.range' (r + 1) (s - r) ++
            List.range' (s + 1) (i - 1 - s))) := by
        rw [spanDeps_gt i j (by omega)]
        rw [range'_glue (r + 1) (s - r) (i - 1 - s) (s + 1) (by omega)]
        rw [show s - r + (i - 1 - s) = i - 1 - r by omega]
        rw [show (r : ℕ) :: List.range' (r + 1) (i - 1 - r) =
          List.range' r (i - 1 - r + 1) from (List.range'_succ r (i - 1 - r) 1).symm]
        rw [show i - 1 - r + 1 = i - r by omega]
        rw [range'_glue j (r - j) (i - r) r (by omega)]
        congr 1
        omega
      have hq1 : ∀ c ∈ List.range' j (r - j),
          ¬ ((fun c => par c == i) c = true) := by
        intro c hc
        rw [List.mem_range'_1] at hc
        have := hpar3 c (by omega) (by omega)
        simp only [beq_iff_eq]
        omega
      have hq3 : ∀ c ∈ List.range' (r + 1) (s - r),
          ¬ ((fun c => par c == i) c = true) := by
        intro c hc
        rw [List.mem_range'_1] at hc
        have := hpar1 c (by omega) (by omega)
        simp only [beq_iff_eq]
        omega
      have hfilter : (spanDeps i j).filter (fun c => par c == i) =
          [r] ++ ((List.range' (s + 1) (i - 1 - s)).filter (fun c => par c == i)) := by
        rw [hsplit, List.filter_append, List.filter_cons, List.filter_append,
          List.filter_eq_nil_iff.mpr hq1, List.filter_eq_nil_iff.mpr hq3]
        simp [hag1]
      obtain ⟨fl0, hfl0⟩ : ∃ fl0, fl = fl0 + 1 := ⟨fl - 1, by omega⟩
      have hvr : v.getD r true = false :=
        hv r (by rw [spanDeps_gt i j (by omega), List.mem_range'_1]; omega)
      have hkL : (g.getD r default).lefts = (List.range' j (r - j)).filter (fun c => par c == r) := by
        rw [hg r (by omega)]
        apply sorted_lt_eq_of_mem
        · exact (List.pairwise_lt_range' 1 L).filter _
        · exact (List.pairwise_lt_range' j (r - j)).filter _
        · intro c
          simp only [List.mem_filter, List.mem_range'_1, Bool.and_eq_true, beq_iff_eq,
            Bool.not_eq_true', decide_eq_false_iff_not]
          constructor
          · rintro ⟨⟨hc1, hc2⟩, hpc, hcr⟩
            by_cases hin : j ≤ c ∧ c + 1 ≤ i
            · rcases Nat.lt_or_ge c r with h2 | h2
              · exact ⟨⟨by omega, by omega⟩, hpc⟩
              · have hcr2 : c = r := by omega
                have hpc2 : par c = i := by
                  rw [hcr2]
                  exact hag1
                omega
            · have := houtb c (by omega) (by omega) hin
              omega
          · rintro ⟨⟨hc1, hc2⟩, hpc⟩
            exact ⟨⟨by omega, by omega⟩, hpc, by omega⟩
      have hkR : (g.getD r default).rights = (List.range' (r + 1) (s - r)).filter (fun c => par c == r) := by
        rw [hg r (by omega)]
        apply sorted_lt_eq_of_mem
        · exact (List.pairwise_lt_range' 1 L).filter _
        · exact (List.pairwise_lt_range' (r + 1) (s - r)).filter _
        · intro c
          simp only [List.mem_filter, List.mem_range'_1, Bool.and_eq_true, beq_iff_eq,
            decide_eq_true_eq]
          constructor
          · rintro ⟨⟨hc1, hc2⟩, hpc, hcr⟩
            by_cases hin : j ≤ c ∧ c + 1 ≤ i
            · rcases Nat.lt_or_ge c (s + 1) with h2 | h2
              · exact ⟨⟨by omega, by omega⟩, hpc⟩
              · have := hpar2 c (by omega) (by omega)
                omega
            · have := houtb c (by omega) (by omega) hin
              omega
          · rintro ⟨⟨hc1, hc2⟩, hpc⟩
            exact ⟨⟨by omega, by omega⟩, hpc, by omega⟩
      have hFr : inorderF g (fl0 + 1) v r =
          ((inorderMany (inorderF g fl0) (v.set r true) ((List.range' j (r - j)).filter (fun c => par c == r))).1 ++ r :: (inorderMany (inorderF g fl0) (inorderMany (inorderF g fl0) (v.set r true) ((List.range' j (r - j)).filter (fun c => par c == r))).2 ((List.range' (r + 1) (s - r)).filter (fun c => par c == r))).1, (inorderMany (inorderF g fl0) (inorderMany (inorderF g fl0) (v.set r true) ((List.range' j (r - j)).filter (fun c => par c == r))).2 ((List.range' (r + 1) (s - r)).filter (fun c => par c == r))).2) := by
        rw [inorderF, if_neg (show ¬ v.getD r true = true by rw [hvr]; simp),
          hkL, hkR]
      have houtsL : ∀ c, 1 ≤ c → c ≤ L → c ∉ spanDeps r j → par c ∉ spanDeps r j := by
        intro c h1 h2 h3
        rw [hsd4, List.mem_range'_1] at h3 ⊢
        intro hmem
        by_cases hin : j ≤ c ∧ c + 1 ≤ i
        · rcases Nat.lt_or_ge c r with hc1 | hc1
          · exact h3 (by omega)
          · rcases Nat.eq_or_lt_of_le hc1 with hc2 | hc2
            · have hpc : par c = i := by
                rw [show c = r from hc2.symm]
                exact hag1
              omega
            · rcases Nat.lt_or_ge c (s + 1) with hc3 | hc3
              · have := hpar1 c (by omega) (by omega)
                omega
              · have := hpar2 c (by omega) (by omega)
                omega
        · have := houtb c h1 h2 hin
          omega
      have hvL : ∀ c ∈ spanDeps r j, (v.set r true).getD c true = false := by
        intro c hc
        rw [hsd4, List.mem_range'_1] at hc
        rw [getD_set_ne _ _ _ _ _ (show r ≠ c by omega)]
        exact hv c (by rw [spanDeps_gt i j (by omega), List.mem_range'_1]; omega)
      have hIHL := ih f (by omega) r j fl0 (v.set r true) (by omega) (by omega)
        (by omega) (Or.inr hj1) (fun p hp => hagree p (hmem3 p hp)) houtsL
        (by rw [List.length_set]; exact hvlen) hvL
      obtain ⟨hLa, hLb, hLc⟩ := hIHL
      rw [hsd4] at hLa hLb hLc
      have houtsR : ∀ c, 1 ≤ c → c ≤ L → c ∉ spanDeps r s → par c ∉ spanDeps r s := by
        intro c h1 h2 h3
        rw [spanDeps_le r s (by omega), List.mem_range'_1] at h3 ⊢
        intro hmem
        by_cases hin : j ≤ c ∧ c + 1 ≤ i
        · rcases Nat.lt_or_ge c r with hc1 | hc1
          · have := hpar3 c (by omega) (by omega)
            omega
          · rcases Nat.eq_or_lt_of_le hc1 with hc2 | hc2
            · have hpc : par c = i := by
                rw [show c = r from hc2.symm]
                exact hag1
              omega
            · rcases Nat.lt_or_ge c (s + 1) with hc3 | hc3
              · exact h3 (by omega)
              · have := hpar2 c (by omega) (by omega)
                omega
        · have := houtb c h1 h2 hin
          omega
      have hvR : ∀ c ∈ spanDeps r s, (inorderMany (inorderF g fl0) (v.set r true) ((List.range' j (r - j)).filter (fun c => par c == r))).2.getD c true = false := by
        intro c hc
        rw [spanDeps_le r s (by omega), List.mem_range'_1] at hc
        rw [hLc c, if_neg (by rw [List.mem_range'_1]; omega)]
        rw [getD_set_ne _ _ _ _ _ (show r ≠ c by omega)]
        exact hv c (by rw [spanDeps_gt i j (by omega), List.mem_range'_1]; omega)
      have hIHR := ih f2 (by omega) r s fl0 ((inorderMany (inorderF g fl0) (v.set r true) ((List.range' j (r - j)).filter (fun c => par c == r))).2) (by omega) (by omega)
        (by omega) (Or.inl (by omega)) (fun p hp => hagree p (hmem1 p hp)) houtsR
        hLb hvR
      obtain ⟨hRa, hRb, hRc⟩ := hIHR
      rw [spanDeps_le r s (by omega)] at hRa hRb hRc
      have houtsC : ∀ c, 1 ≤ c → c ≤ L → c ∉ spanDeps i (s + 1) →
          par c ∉ spanDeps i (s + 1) := by
        intro c h1 h2 h3
        rw [hsd2, List.mem_range'_1] at h3 ⊢
        intro hmem
        by_cases hin : j ≤ c ∧ c + 1 ≤ i
        · rcases Nat.lt_or_ge c r with hc1 | hc1
          · have := hpar3 c (by omega) (by omega)
            omega
          · rcases Nat.eq_or_lt_of_le hc1 with hc2 | hc2
            · have hpc : par c = i := by
                rw [show c = r from hc2.symm]
                exact hag1
              omega
            · rcases Nat.lt_or_ge c (s + 1) with hc3 | hc3
              · have := hpar1 c (by omega) (by omega)
                omega
              · exact h3 (by omega)
        · have := houtb c h1 h2 hin
          omega
      have hvC : ∀ c ∈ spanDeps i (s + 1), (inorderMany (inorderF g fl0) (inorderMany (inorderF g fl0) (v.set r true) ((List.range' j (r - j)).filter (fun c => par c == r))).2 ((List.range' (r + 1) (s - r)).filter (fun c => par c == r))).2.getD c true = false := by
        intro c hc
        rw [hsd2, List.mem_range'_1] at hc
        rw [hRc c, if_neg (by rw [List.mem_range'_1]; omega)]
        rw [hLc c, if_neg (by rw [List.mem_range'_1]; omega)]
        rw [getD_set_ne _ _ _ _ _ (show r ≠ c by omega)]
        exact hv c (by rw [spanDeps_gt i j (by omega), List.mem_range'_1]; omega)
      have hIHC := ih f2 (by omega) i (s + 1) (fl0 + 1) ((inorderMany (inorderF g fl0) (inorderMany (inorderF g fl0) (v.set r true) ((List.range' j (r - j)).filter (fun c => par c == r))).2 ((List.range' (r + 1) (s - r)).filter (fun c => par c == r))).2) (by omega)
        (by omega) (by omega) (Or.inr (by omega))
        (fun p hp => hagree p (hmem2 p hp)) houtsC hRb hvC
      obtain ⟨h1a, h1b, h1c⟩ := hIHC
      rw [hsd2] at h1a h1b h1c
      rw [hfilter, hfl0, inorderMany_append, inorderMany_single, hFr]
      refine ⟨?_, ?_, ?_⟩
      · rw [hLa, hRa, h1a, hsplit]
        simp [List.append_assoc]
      · exact h1b
      · intro t
        rw [h1c t, hRc t, hLc t]
        rw [spanDeps_gt i j (by omega)]
        by_cases htC : t ∈ List.range' (s + 1) (i - 1 - s)
        · rw [if_pos htC, if_pos]
          rw [List.mem_range'_1] at htC ⊢
          omega
        · rw [if_neg htC]
          by_cases htR : t ∈ List.range' (r + 1) (s - r)
          · rw [if_pos htR, if_pos]
            rw [List.mem_range'_1] at htR ⊢
            omega
          · rw [if_neg htR]
            by_cases htL : t ∈ List.range' j (r - j)
            · rw [if_pos htL, if_pos]
              rw [List.mem_range'_1] at htL ⊢
              omega
            · rw [if_neg htL]
              by_cases htr : t = r
              · subst htr
                rw [getD_set_self _ _ _ _ (by rw [hvlen]; omega), if_pos]
                rw [List.mem_range'_1]
                omega
              · rw [getD_set_ne _ _ _ _ _ (fun he => htr he.symm)]
                by_cases htj : t ∈ List.range' j (i - j)
                · exfalso
                  rw [List.mem_range'_1] at htC htR htL htj
                  omega
                · rw [if_neg htj]



/-- C1 counterexample: a decoded batch head array is padded with the sentinel
`1` beyond the sentence's true length, and the padded array — the literal
"head array returned by eisner" — fails the tree validator even though the
meaningful prefix is a perfect projective tree. -/
theorem claim1_cex :
    eisner 4 scB [false, true, true, false] = some [1, 2, 0, 1] ∧
    istree [1, 2, 0, 1] = some false := by
  constructor
  · with_unfolding_all rfl
  · decide

/-- C1 amended: the meaningful prefix (length `mask.count true + 1`) of every
head array returned by `eisner` passes the tree validator: the decoder output
denotes a single-rooted projective tree on the real tokens. -/
theorem claim1_amended (n : ℕ) (S : ℕ → ℕ → ℚ) (mask : List Bool) (h : List ℕ)
    (hL1 : 1 ≤ mask.count true) (he : eisner n S mask = some h) :
    istree ((h.take (mask.count true + 1)).map Int.ofNat) = some true := by
  have hn : mask.count true < n := by
    by_contra hn
    simp only [eisner] at he
    rw [backtrack] at he
    rw [if_neg (show ¬ (0 : ℕ) = mask.count true by omega)] at he
    rw [if_pos (show ¬ ((0 : ℕ) < n ∧ mask.count true < n) by omega)] at he
    exact Option.noConfusion he
  have hTt := tablesOk (mask.count true) S
  rw [eisner_eq n S mask hn, Option.some.injEq] at he
  obtain ⟨A, hAdef⟩ : ∃ A, btArcs (pIlook (mask.count true) S) (pClook (mask.count true) S) (2 * n + 1) 0 (mask.count true) true = A := ⟨_, rfl⟩
  rw [hAdef] at he
  have hFlen0 : (A.foldl (fun h p => h.set p.1 p.2)
      (List.replicate (mask.count true + 1) 1)).length = mask.count true + 1 := by
    rw [foldl_set_length, List.length_replicate]
  have htake : h.take (mask.count true + 1) = A.foldl (fun h p => h.set p.1 p.2)
      (List.replicate (mask.count true + 1) 1) := by
    rw [← he]
    have htl := List.take_left (A.foldl (fun h p => h.set p.1 p.2)
      (List.replicate (mask.count true + 1) 1)) (List.replicate (n - (mask.count true + 1)) 1)
    rw [hFlen0] at htl
    exact htl
  rw [htake]
  obtain ⟨F, hFdef⟩ : ∃ F, A.foldl (fun h p => h.set p.1 p.2)
      (List.replicate (mask.count true + 1) 1) = F := ⟨_, rfl⟩
  rw [hFdef]
  rw [hFdef] at hFlen0
  have hspec := btArcs_spec _ _ hTt (2 * n + 1) 0 (mask.count true) true
    (by simp only [cond_true]; omega)
  rw [hAdef] at hspec
  rw [spanDeps_le 0 (mask.count true) (Nat.zero_le _), Nat.sub_zero] at hspec
  have hnd : (A.map Prod.fst).Nodup := by
    rw [hspec.1.nodup_iff]
    exact (List.pairwise_lt_range' 1 (mask.count true)).imp (fun h => Nat.ne_of_lt h)
  have harc : ∀ p ∈ A, F.getD p.1 0 = p.2 := by
    intro p hp
    have hm : p.1 ∈ List.range' 1 (mask.count true) :=
      hspec.1.mem_iff.mp (List.mem_map_of_mem Prod.fst hp)
    rw [List.mem_range'_1] at hm
    rw [← hFdef]
    obtain ⟨p1, p2⟩ := p
    exact foldl_set_getD_mem A _ p1 p2 hnd hp (by rw [List.length_replicate]; omega)
  have hFbound : ∀ c, 1 ≤ c → c ≤ mask.count true → F.getD c 0 ≤ mask.count true := by
    intro c h1 h2
    have hm : c ∈ A.map Prod.fst := hspec.1.mem_iff.mpr (by rw [List.mem_range'_1]; omega)
    obtain ⟨p, hp, hp1⟩ := List.mem_map.mp hm
    have hb2 := hspec.2 p hp
    have h3 := harc p hp
    rw [hp1] at h3
    omega
  have hs0len : (F.map Int.ofNat).length = mask.count true + 1 := by
    rw [List.length_map, hFlen0]
  have htlen : (((F.map Int.ofNat).set 0 (-1))).length = mask.count true + 1 := by
    rw [List.length_set, hs0len]
  have htget : ∀ c, 1 ≤ c → c ≤ mask.count true →
      (((F.map Int.ofNat).set 0 (-1))).getD c 0 = ((F.getD c 0 : ℕ) : ℤ) := by
    intro c h1 h2
    have hclt : c < F.length := by omega
    rw [List.getD_eq_getElem?_getD, List.getElem?_set_ne (show (0 : ℕ) ≠ c by omega),
      List.getElem?_map, List.getElem?_eq_getElem hclt, List.getD_eq_getElem F 0 hclt]
    rfl
  have hHL : headsLegal (((F.map Int.ofNat).set 0 (-1))) = true := by
    rw [headsLegal, List.all_eq_true]
    intro c hc
    rw [htlen, show mask.count true + 1 - 1 = mask.count true from rfl, List.mem_range'_1] at hc
    rw [decide_eq_true_eq, htget c (by omega) (by omega), htlen]
    have := hFbound c (by omega) (by omega)
    omega
  simp only [istree]
  rw [if_neg (show ¬ (F.map Int.ofNat).length = 0 by rw [hs0len]; omega)]
  rw [if_pos hHL, htlen, Option.some.injEq]
  have hpareq : ∀ c, 1 ≤ c → c ≤ mask.count true → effIdx (mask.count true + 1) (((F.map Int.ofNat).set 0 (-1)).getD c 0) = F.getD c 0 := by
    intro c h1 h2
    rw [htget c h1 h2, effIdx, if_neg (by omega)]
    simp
  have hparlt : ∀ c, 1 ≤ c → c < mask.count true + 1 → effIdx (mask.count true + 1) (((F.map Int.ofNat).set 0 (-1)).getD c 0) < mask.count true + 1 := by
    intro c h1 h2
    rw [hpareq c h1 (by omega)]
    have := hFbound c h1 (by omega)
    omega
  have hgk : ∀ x, x ≤ mask.count true → (buildNodes (fun c => effIdx (mask.count true + 1) (((F.map Int.ofNat).set 0 (-1)).getD c 0)) (mask.count true + 1)).getD x default =
      ⟨(List.range' 1 (mask.count true)).filter (fun c => effIdx (mask.count true + 1) (((F.map Int.ofNat).set 0 (-1)).getD c 0) == x && ! decide (x < c)),
       (List.range' 1 (mask.count true)).filter (fun c => effIdx (mask.count true + 1) (((F.map Int.ofNat).set 0 (-1)).getD c 0) == x && decide (x < c))⟩ := by
    intro x hx
    have hb2 := buildNodes_getD (fun c => effIdx (mask.count true + 1) (((F.map Int.ofNat).set 0 (-1)).getD c 0)) (mask.count true + 1) x (by omega)
      (fun c h1 h2 => hparlt c h1 h2)
    rw [show mask.count true + 1 - 1 = mask.count true from rfl] at hb2
    exact hb2
  have hroot := hgk 0 (Nat.zero_le _)
  -- the unique root dependent
  obtain ⟨r0, hr0def⟩ : ∃ r0, pClook (mask.count true) S 0 (mask.count true) = r0 := ⟨_, rfl⟩
  have hr0b : 0 < r0 ∧ r0 ≤ mask.count true := hr0def ▸ (hTt 0 (mask.count true) hL1).2.2.1
  have hs0eq : pIlook (mask.count true) S 0 r0 = 0 := by
    rw [pIlook, if_pos hr0b.1]
    exact dp_ir_root_path (mask.count true) S r0 (by omega) hr0b.2
  obtain ⟨m, hm⟩ : ∃ m, 2 * n = m + 1 := ⟨2 * n - 1, by omega⟩
  have hAtop : A = ((r0, 0) :: (btArcs (pIlook (mask.count true) S) (pClook (mask.count true) S) m 0 0 true ++ btArcs (pIlook (mask.count true) S) (pClook (mask.count true) S) m r0 1 true)) ++
      btArcs (pIlook (mask.count true) S) (pClook (mask.count true) S) (2 * n) r0 (mask.count true) true := by
    rw [← hAdef, btArcs]
    rw [if_neg (show ¬ (0 : ℕ) = mask.count true by omega), if_pos rfl, hr0def]
    congr 1
    rw [hm, btArcs, if_neg (show ¬ (0 : ℕ) = r0 by omega),
      if_neg (show ¬ (false : Bool) = true by simp), hs0eq,
      Nat.min_eq_left (Nat.zero_le r0), Nat.max_eq_right (Nat.zero_le r0)]
  have h00 : btArcs (pIlook (mask.count true) S) (pClook (mask.count true) S) m 0 0 true = [] := by
    cases m with
    | zero => rfl
    | succ m2 => rw [btArcs, if_pos rfl]
  have huniq : ∀ c, 1 ≤ c → c ≤ mask.count true → F.getD c 0 = 0 → c = r0 := by
    intro c h1 h2 h3
    have hm1 : c ∈ A.map Prod.fst := hspec.1.mem_iff.mpr (by rw [List.mem_range'_1]; omega)
    obtain ⟨p, hp, hp1⟩ := List.mem_map.mp hm1
    have hFp := harc p hp
    rw [hp1] at hFp
    have hp2 : p.2 = 0 := by omega
    rw [hAtop] at hp
    rcases List.mem_append.mp hp with hp3 | hp3
    · rcases List.mem_cons.mp hp3 with hp4 | hp4
      · rw [hp4] at hp1
        exact hp1.symm
      · rcases List.mem_append.mp hp4 with hp5 | hp5
        · rw [h00] at hp5
          simp at hp5
        · have hb3 := (btArcs_spec _ _ hTt m r0 1 true
            (by simp only [cond_true]; omega)).2 p hp5
          omega
    · have hb4 := (btArcs_spec _ _ hTt (2 * n) r0 (mask.count true) true
        (by simp only [cond_true]; omega)).2 p hp3
      omega
  have hparr0 : F.getD r0 0 = 0 :=
    harc (r0, 0) (by rw [hAtop]; exact List.mem_append_left _ (List.mem_cons_self _ _))
  have hFS : (List.range' 1 (mask.count true)).filter (fun c => effIdx (mask.count true + 1) (((F.map Int.ofNat).set 0 (-1)).getD c 0) == 0) = [r0] := by
    apply sorted_lt_eq_of_mem
    · exact (List.pairwise_lt_range' 1 (mask.count true)).filter _
    · exact List.pairwise_singleton _ _
    · intro c
      simp only [List.mem_filter, List.mem_range'_1, beq_iff_eq, List.mem_singleton]
      constructor
      · rintro ⟨⟨h1, h2⟩, hpc⟩
        rw [hpareq c (by omega) (by omega)] at hpc
        exact huniq c (by omega) (by omega) hpc
      · intro hceq
        have hc1 : 1 ≤ c := by omega
        have hc2 : c ≤ mask.count true := by omega
        refine ⟨⟨by omega, by omega⟩, ?_⟩
        rw [hpareq c hc1 hc2, hceq]
        exact hparr0
  have hrfilt : (List.range' 1 (mask.count true)).filter
      (fun c => effIdx (mask.count true + 1) (((F.map Int.ofNat).set 0 (-1)).getD c 0) == 0 && decide (0 < c)) = (List.range' 1 (mask.count true)).filter (fun c => effIdx (mask.count true + 1) (((F.map Int.ofNat).set 0 (-1)).getD c 0) == 0) :=
    List.filter_congr (fun c hc => by
      rw [List.mem_range'_1] at hc
      rw [decide_eq_true (show 0 < c by omega), Bool.and_true])
  have hroot_lEQ : ((buildNodes (fun c => effIdx (mask.count true + 1) (((F.map Int.ofNat).set 0 (-1)).getD c 0)) (mask.count true + 1)).getD 0 default).lefts = [] := by
    rw [hroot]
    apply List.filter_eq_nil_iff.mpr
    intro c hc
    rw [List.mem_range'_1] at hc
    intro hcontra
    rw [Bool.and_eq_true, Bool.not_eq_true', decide_eq_false_iff_not] at hcontra
    omega
  have hroot_rEQ : ((buildNodes (fun c => effIdx (mask.count true + 1) (((F.map Int.ofNat).set 0 (-1)).getD c 0)) (mask.count true + 1)).getD 0 default).rights = [r0] := by
    rw [hroot]
    exact hrfilt.trans hFS
  simp only [judgeLegal]
  rw [hroot_lEQ, hroot_rEQ]
  rw [if_neg (show ¬ (([] : List ℕ) ++ [r0]).length ≠ 1 by simp)]
  rw [decide_eq_true_eq]
  have hv0 : (List.replicate (mask.count true + 1) false).getD 0 true = false := by
    rw [List.getD_eq_getElem?_getD, List.getElem?_replicate, if_pos (by omega)]
    rfl
  have htravh := travC (mask.count true) (fun c => effIdx (mask.count true + 1) (((F.map Int.ofNat).set 0 (-1)).getD c 0)) (pIlook (mask.count true) S) (pClook (mask.count true) S) hTt
    (buildNodes (fun c => effIdx (mask.count true + 1) (((F.map Int.ofNat).set 0 (-1)).getD c 0)) (mask.count true + 1)) hgk (2 * n + 1) 0 (mask.count true) (mask.count true + 1)
    ((List.replicate (mask.count true + 1) false).set 0 true)
    (by omega) (by omega) (by omega) (Or.inl (Nat.zero_le _))
    (by
      intro p hp
      rw [hAdef] at hp
      have hm1 : p.1 ∈ List.range' 1 (mask.count true) :=
        hspec.1.mem_iff.mp (List.mem_map_of_mem Prod.fst hp)
      rw [List.mem_range'_1] at hm1
      have he2 := hpareq p.1 (by omega) (by omega)
      show effIdx (mask.count true + 1) (((F.map Int.ofNat).set 0 (-1)).getD p.1 0) = p.2
      rw [he2]
      exact harc p hp)
    (by
      intro c h1 h2 h3
      exact absurd (by
        rw [spanDeps_le 0 (mask.count true) (Nat.zero_le _), Nat.sub_zero, List.mem_range'_1]
        omega) h3)
    (by rw [List.length_set, List.length_replicate])
    (by
      intro c hc
      rw [spanDeps_le 0 (mask.count true) (Nat.zero_le _), Nat.sub_zero, List.mem_range'_1] at hc
      rw [getD_set_ne _ _ _ _ _ (show (0 : ℕ) ≠ c by omega)]
      rw [List.getD_eq_getElem?_getD, List.getElem?_replicate, if_pos (by omega)]
      rfl)
  obtain ⟨hta, hta2, hta3⟩ := htravh
  rw [spanDeps_le 0 (mask.count true) (Nat.zero_le _), Nat.sub_zero] at hta
  have htaF : (inorderMany (inorderF (buildNodes (fun c => effIdx (mask.count true + 1) (((F.map Int.ofNat).set 0 (-1)).getD c 0)) (mask.count true + 1)) (mask.count true + 1))
      ((List.replicate (mask.count true + 1) false).set 0 true) [r0]).1 =
      List.range' 1 (mask.count true) := by
    rw [← hFS]
    exact hta
  rw [inorderF, if_neg (show ¬ (List.replicate (mask.count true + 1) false).getD 0 true = true by
    rw [hv0]
    simp)]
  rw [hroot_lEQ, hroot_rEQ]
  show 0 :: (inorderMany (inorderF (buildNodes (fun c => effIdx (mask.count true + 1) (((F.map Int.ofNat).set 0 (-1)).getD c 0)) (mask.count true + 1)) (mask.count true + 1))
      ((List.replicate (mask.count true + 1) false).set 0 true) [r0]).1 =
    List.range (mask.count true + 1)
  rw [htaF, List.range_eq_range', List.range'_succ]

theorem claim1_amended_witness :
    istree ((([1, 0] : List ℕ).take (([false, true] : List Bool).count true + 1)).map
      Int.ofNat) = some true :=
  claim1_amended 2 scA [false, true] [1, 0] (by decide) (by with_unfolding_all rfl)

end DDP
